import Mathlib

/-! Verification development for the SC-Playtime-Tracker repository.

Shallow embedding conventions:
* Rust `String` / `&str` values are lists of characters (`Str`).
* Rust `f64` values that may carry NaN or infinities are the inductive
  type `FVal`, with exact rational finite values; `f64` values that are
  always derived from integer second counts (session durations) are
  plain rationals.
* `sort_by` with a comparator that calls `partial_cmp(..).unwrap()` is
  an insertion sort in the `Option` monad (`sortOptCmp`): a comparison
  that returns `None` aborts the whole sort, as the Rust panic does.
* File-system state is passed explicitly; fallible operations return
  `Option` or `Except`.
-/

/-- Strings from the Rust source, modelled as lists of characters. -/
abbrev Str := List Char

/-- `u8::to_ascii_lowercase` on a character: shift `A`..`Z` by 32. -/
def asciiLowerChar (c : Char) : Char :=
  if 'A' ≤ c ∧ c ≤ 'Z' then Char.ofNat (c.toNat + 32) else c

/-- Rust `str::eq_ignore_ascii_case`: equal length and bytewise equal after
ASCII lowercasing.  Mapping preserves length, so list equality of the
lowered strings captures both conditions. -/
def eqIgnoreAsciiCase (a b : Str) : Bool :=
  a.map asciiLowerChar == b.map asciiLowerChar

/-- The Unicode `White_Space` code points, the set used by Rust's
`char::is_whitespace` and hence by `str::trim`. -/
def isRustWhitespace (c : Char) : Bool :=
  c ∈ (['\x09', '\x0a', '\x0b', '\x0c', '\x0d', ' ', '\u0085', ' ',
        ' ', ' ', ' ', ' ', ' ', ' ', ' ',
        ' ', ' ', ' ', ' ', ' ', ' ', ' ',
        ' ', ' ', '　'] : List Char)

/-- Rust `str::trim`: drop whitespace from both ends. -/
def trimStr (s : Str) : Str :=
  ((s.dropWhile isRustWhitespace).reverse.dropWhile isRustWhitespace).reverse

/-- Model of `f64` for the leaderboard totals: NaN, the two infinities, or
an exact finite value. -/
inductive FVal where
  | nan
  | inf
  | ninf
  | fin (q : ℚ)
deriving DecidableEq

/-- `f64::partial_cmp`: `None` whenever NaN is involved, otherwise the
total order with `-inf < finite < +inf`. -/
def FVal.partialCmp : FVal → FVal → Option Ordering
  | .nan, _ => none
  | _, .nan => none
  | .inf, .inf => some .eq
  | .inf, _ => some .gt
  | .ninf, .ninf => some .eq
  | .ninf, _ => some .lt
  | .fin _, .inf => some .lt
  | .fin _, .ninf => some .gt
  | .fin a, .fin b =>
    some (if a < b then .lt else if b < a then .gt else .eq)

/-- `f64::is_finite`. -/
def FVal.isFinite : FVal → Bool
  | .fin _ => true
  | _ => false

/-- The Rust comparison `v < 0.0` (false for NaN). -/
def FVal.isNeg : FVal → Bool
  | .nan => false
  | .inf => false
  | .ninf => true
  | .fin q => decide (q < 0)

/-- One insertion step of `sortOptCmp`: `x` is placed before the first `y`
with `cmp x y ≠ Greater`; a failing comparison aborts. -/
def insertOptCmp {α : Type} (cmp : α → α → Option Ordering) (x : α) :
    List α → Option (List α)
  | [] => some [x]
  | y :: ys =>
    match cmp x y with
    | none => none
    | some .gt => (insertOptCmp cmp x ys).map (fun zs => y :: zs)
    | some .lt => some (x :: y :: ys)
    | some .eq => some (x :: y :: ys)

/-- Model of Rust `slice::sort_by` with a comparator that may panic
(`partial_cmp(..).unwrap()`): a stable insertion sort in the `Option`
monad.  `none` models the panic.  For a two-element list exactly one
comparison is performed, as any comparison sort would do. -/
def sortOptCmp {α : Type} (cmp : α → α → Option Ordering) :
    List α → Option (List α)
  | [] => some []
  | x :: xs => (sortOptCmp cmp xs).bind (insertOptCmp cmp x)

/-- `LeaderboardEntry` from `src/leaderboard.rs`. -/
structure LeaderboardEntry where
  username : Str
  total_minutes : FVal
deriving DecidableEq

/-- The comparator closure of `update_local_entries`:
`|a, b| b.total_minutes.partial_cmp(&a.total_minutes).unwrap()` (its
`unwrap` is the surrounding `Option`). -/
def entryCmpDesc (a b : LeaderboardEntry) : Option Ordering :=
  FVal.partialCmp b.total_minutes a.total_minutes

/-- The upsert step of `update_local_entries`: the first entry whose name
matches the (raw) submitted username case-insensitively is overwritten in
place; otherwise the trimmed username is pushed at the end. -/
def upsertEntry (username : Str) (total : FVal) :
    List LeaderboardEntry → List LeaderboardEntry
  | [] => [⟨trimStr username, total⟩]
  | e :: es =>
    if eqIgnoreAsciiCase e.username username then
      { e with total_minutes := total } :: es
    else
      e :: upsertEntry username total es

/-- `update_local_entries` from `src/leaderboard.rs`: upsert, sort
descending by `total_minutes` with a panicking comparator, truncate to 25.
`none` models a panic inside the sort. -/
def update_local_entries (entries : List LeaderboardEntry) (username : Str)
    (total : FVal) : Option (List LeaderboardEntry) :=
  (sortOptCmp entryCmpDesc (upsertEntry username total entries)).map
    (List.take 25)

/-- Outcome of `LeaderboardClient::submit_total_minutes` on the `Local`
variant: the username validation error, a panic inside
`update_local_entries`, or success carrying the list written back to the
local file. -/
inductive LocalSubmitOutcome where
  | usernameError
  | panicked
  | ok (entries : List LeaderboardEntry)
deriving DecidableEq

/-- The `Local` arm of `LeaderboardClient::submit_total_minutes`: only the
blank-username check guards the call to `update_local_entries`; no
finiteness or sign validation is performed. -/
def submit_total_minutes_local (stored : List LeaderboardEntry)
    (username : Str) (total : FVal) : LocalSubmitOutcome :=
  if (trimStr username).isEmpty then .usernameError
  else
    match update_local_entries stored username total with
    | none => .panicked
    | some l => .ok l

/-- Response of the leaderboard service `submit_handler`: a client error
with HTTP status and message, a panic, or success (HTTP 204, no body)
carrying the persisted list. -/
inductive SubmitResponse where
  | clientError (status : ℕ) (message : Str)
  | panicked
  | noContent (status : ℕ) (persisted : List LeaderboardEntry)
deriving DecidableEq

/-- `submit_handler` together with `LeaderboardState::submit` from
`src/bin/leaderboard_server.rs`: trim the username, reject a blank name or
a non-finite or negative total with HTTP 400, otherwise run
`update_local_entries` on the trimmed name and persist the result,
answering HTTP 204 `NO_CONTENT`. -/
def submit_handler (entries : List LeaderboardEntry) (username : Str)
    (total_minutes : FVal) : SubmitResponse :=
  let u := trimStr username
  if u.isEmpty then
    .clientError 400 (String.toList (r"Username is required"))
  else if !total_minutes.isFinite || total_minutes.isNeg then
    .clientError 400
      (String.toList (r"total_minutes must be a non-negative number"))
  else
    match update_local_entries entries u total_minutes with
    | none => .panicked
    | some l => .noContent 204 l

/-- `normalize_endpoint`: trim, and drop the value if it is empty. -/
def normalize_endpoint (value : Str) : Option Str :=
  let trimmed := trimStr value
  if trimmed.isEmpty then none else some trimmed

/-- `runtime_default_endpoint`: the `PLAYTIME_LEADERBOARD_URL` environment
variable, normalized.  The ambient environment is passed explicitly. -/
def runtime_default_endpoint (envUrl : Option Str) : Option Str :=
  envUrl.bind normalize_endpoint

/-- `baked_in_default_endpoint`: the compile-time `LEADERBOARD_DEFAULT_URL`
value (`option_env!`), normalized.  Passed explicitly. -/
def baked_in_default_endpoint (compiledUrl : Option Str) : Option Str :=
  compiledUrl.bind normalize_endpoint

/-- `FALLBACK_GLOBAL_ENDPOINT` from `src/leaderboard.rs`. -/
def FALLBACK_GLOBAL_ENDPOINT : Str :=
  String.toList (r"https://playtracker.al1e.dev")

/-- `fallback_global_endpoint`: always resolves. -/
def fallback_global_endpoint : Option Str := some FALLBACK_GLOBAL_ENDPOINT

/-- `global_remote_endpoint`: the source tries the baked-in (compiled-in)
default first, then the runtime environment value, then the hardcoded
fallback. -/
def global_remote_endpoint (envUrl compiledUrl : Option Str) : Option Str :=
  (baked_in_default_endpoint compiledUrl).orElse (fun _ =>
    (runtime_default_endpoint envUrl).orElse (fun _ =>
      fallback_global_endpoint))

/-- The construction result of `LeaderboardClient::auto`, reduced to the
variant selection: a remote client with primary and optional secondary
endpoint, or the local-file client. -/
inductive LeaderboardClientKind where
  | remote (endpoint : Str) (secondary : Option Str)
  | localFile
deriving DecidableEq

/-- `LeaderboardClient::auto` from `src/leaderboard.rs`, with the ambient
environment and compile-time inputs passed explicitly. -/
def leaderboard_client_auto (envUrl compiledUrl : Option Str)
    (override_endpoint : Option Str) : LeaderboardClientKind :=
  match override_endpoint with
  | some raw =>
    let trimmed := trimStr raw
    if eqIgnoreAsciiCase trimmed (String.toList (r"default")) ||
        eqIgnoreAsciiCase trimmed (String.toList (r"builtin")) then
      match global_remote_endpoint envUrl compiledUrl with
      | some endpoint => .remote endpoint none
      | none => .localFile
    else if eqIgnoreAsciiCase trimmed (String.toList (r"local")) then
      .localFile
    else
      match normalize_endpoint trimmed with
      | some endpoint =>
        let secondary :=
          match global_remote_endpoint envUrl compiledUrl with
          | some g => if eqIgnoreAsciiCase g endpoint then none else some g
          | none => none
        .remote endpoint secondary
      | none =>
        match global_remote_endpoint envUrl compiledUrl with
        | some endpoint => .remote endpoint none
        | none => .localFile
  | none =>
    match global_remote_endpoint envUrl compiledUrl with
    | some endpoint => .remote endpoint none
    | none => .localFile

/-! ### Pure view of the panicking sort

When no NaN is present the comparator of `update_local_entries` is total,
and `sortOptCmp` coincides with Mathlib's stable `List.insertionSort` for
the descending order on totals.  The key embeds `FVal` into the linear
order `WithBot (WithTop ℚ)`; the image of `nan` is irrelevant because all
bridging lemmas assume NaN-freeness. -/

/-- Order key of an `FVal` (only meaningful away from `nan`). -/
def fkey : FVal → WithBot (WithTop ℚ)
  | .nan => ⊥
  | .ninf => ⊥
  | .inf => ((⊤ : WithTop ℚ) : WithBot (WithTop ℚ))
  | .fin q => ((q : WithTop ℚ) : WithBot (WithTop ℚ))

/-- Descending order on entries: `a` may come before `b`. -/
def entryGE (a b : LeaderboardEntry) : Prop :=
  fkey b.total_minutes ≤ fkey a.total_minutes

instance : DecidableRel entryGE := fun _ _ =>
  inferInstanceAs (Decidable (_ ≤ _))

instance : IsTotal LeaderboardEntry entryGE :=
  ⟨fun a b => le_total (fkey b.total_minutes) (fkey a.total_minutes)⟩

instance : IsTrans LeaderboardEntry entryGE :=
  ⟨fun _ _ _ h1 h2 => le_trans h2 h1⟩

/-- Normalized (ASCII-lowercased) form of a name; two names are
case-insensitively equal exactly when their normalized forms agree. -/
def nrm (s : Str) : Str := s.map asciiLowerChar

theorem eqIgnoreAsciiCase_iff (a b : Str) :
    eqIgnoreAsciiCase a b = true ↔ nrm a = nrm b := by
  simp [eqIgnoreAsciiCase, nrm]

theorem partialCmp_isSome {a b : FVal} (ha : a ≠ .nan) (hb : b ≠ .nan) :
    (FVal.partialCmp a b).isSome = true := by
  cases a <;> cases b <;> simp_all [FVal.partialCmp]

theorem fkey_fin_lt_iff (p q : ℚ) : fkey (.fin p) < fkey (.fin q) ↔ p < q :=
  WithBot.coe_lt_coe.trans WithTop.coe_lt_coe

theorem fkey_fin_lt_inf (q : ℚ) : fkey (.fin q) < fkey .inf :=
  WithBot.coe_lt_coe.mpr (WithTop.coe_lt_top q)

theorem fkey_ninf_lt_fin (q : ℚ) : fkey .ninf < fkey (.fin q) :=
  WithBot.bot_lt_coe _

theorem fkey_ninf_lt_inf : fkey .ninf < fkey .inf :=
  WithBot.bot_lt_coe _

theorem partialCmp_gt_iff {a b : FVal} (ha : a ≠ .nan) (hb : b ≠ .nan) :
    FVal.partialCmp a b = some .gt ↔ fkey b < fkey a := by
  cases a with
  | nan => exact absurd rfl ha
  | inf =>
    cases b with
    | nan => exact absurd rfl hb
    | inf => simp [FVal.partialCmp]
    | ninf => simp [FVal.partialCmp, fkey_ninf_lt_inf]
    | fin q => simp [FVal.partialCmp, fkey_fin_lt_inf]
  | ninf =>
    cases b with
    | nan => exact absurd rfl hb
    | inf => simp [FVal.partialCmp, not_lt_of_gt fkey_ninf_lt_inf]
    | ninf => simp [FVal.partialCmp]
    | fin q => simp [FVal.partialCmp, not_lt_of_gt (fkey_ninf_lt_fin q)]
  | fin p =>
    cases b with
    | nan => exact absurd rfl hb
    | inf => simp [FVal.partialCmp, not_lt_of_gt (fkey_fin_lt_inf p)]
    | ninf => simp [FVal.partialCmp, fkey_ninf_lt_fin]
    | fin q =>
      simp only [FVal.partialCmp, fkey_fin_lt_iff, Option.some.injEq]
      rcases lt_trichotomy p q with h | h | h
      · simp [if_pos h, h.asymm]
      · subst h
        simp
      · rw [if_neg (not_lt_of_gt h), if_pos h]
        simp [h]

theorem partialCmp_not_gt {a b : FVal} (ha : a ≠ .nan) (hb : b ≠ .nan)
    (h : FVal.partialCmp a b ≠ some .gt) : fkey a ≤ fkey b :=
  not_lt.mp fun hlt => h ((partialCmp_gt_iff ha hb).mpr hlt)

theorem insertOptCmp_eq_orderedInsert (x : LeaderboardEntry)
    (l : List LeaderboardEntry) (hx : x.total_minutes ≠ .nan)
    (hl : ∀ e ∈ l, e.total_minutes ≠ .nan) :
    insertOptCmp entryCmpDesc x l = some (List.orderedInsert entryGE x l) := by
  induction l with
  | nil => rfl
  | cons y ys ih =>
    have hy : y.total_minutes ≠ .nan := hl y (List.mem_cons_self y ys)
    have hys : ∀ e ∈ ys, e.total_minutes ≠ .nan := fun e he =>
      hl e (List.mem_cons_of_mem y he)
    rcases ho : FVal.partialCmp y.total_minutes x.total_minutes with _ | o
    · have hs := partialCmp_isSome hy hx
      rw [ho] at hs
      simp at hs
    · cases o with
      | lt =>
        have hge : entryGE x y := partialCmp_not_gt hy hx (by simp [ho])
        simp only [insertOptCmp, entryCmpDesc, ho, List.orderedInsert,
          if_pos hge]
      | eq =>
        have hge : entryGE x y := partialCmp_not_gt hy hx (by simp [ho])
        simp only [insertOptCmp, entryCmpDesc, ho, List.orderedInsert,
          if_pos hge]
      | gt =>
        have hlt : fkey x.total_minutes < fkey y.total_minutes :=
          (partialCmp_gt_iff hy hx).mp ho
        have hnge : ¬ entryGE x y := not_le.mpr hlt
        simp only [insertOptCmp, entryCmpDesc, ho, ih hys,
          List.orderedInsert, if_neg hnge, Option.map_some']

theorem sortOptCmp_eq_insertionSort (l : List LeaderboardEntry)
    (hl : ∀ e ∈ l, e.total_minutes ≠ .nan) :
    sortOptCmp entryCmpDesc l = some (List.insertionSort entryGE l) := by
  induction l with
  | nil => rfl
  | cons x xs ih =>
    have hx : x.total_minutes ≠ .nan := hl x (List.mem_cons_self x xs)
    have hxs : ∀ e ∈ xs, e.total_minutes ≠ .nan := fun e he =>
      hl e (List.mem_cons_of_mem x he)
    have hsorted : ∀ e ∈ List.insertionSort entryGE xs,
        e.total_minutes ≠ .nan := fun e he =>
      hxs e ((List.perm_insertionSort entryGE xs).mem_iff.mp he)
    simp only [sortOptCmp, ih hxs, Option.some_bind, List.insertionSort]
    exact insertOptCmp_eq_orderedInsert x _ hx hsorted

theorem upsertEntry_noNan (username : Str) {total : FVal} (ht : total ≠ .nan)
    (l : List LeaderboardEntry) :
    (∀ e ∈ l, e.total_minutes ≠ .nan) →
      ∀ e ∈ upsertEntry username total l, e.total_minutes ≠ .nan := by
  induction l with
  | nil =>
    intro _ e he
    simp only [upsertEntry, List.mem_singleton] at he
    subst he
    exact ht
  | cons y ys ih =>
    intro hl e he
    simp only [upsertEntry] at he
    by_cases hm : eqIgnoreAsciiCase y.username username = true
    · rw [if_pos hm] at he
      rcases List.mem_cons.mp he with h | h
      · subst h
        exact ht
      · exact hl e (List.mem_cons_of_mem y h)
    · rw [if_neg hm] at he
      rcases List.mem_cons.mp he with h | h
      · subst h
        exact hl _ (List.mem_cons_self _ _)
      · exact ih (fun e he => hl e (List.mem_cons_of_mem y he)) e h

/-- With NaN-free inputs `update_local_entries` succeeds and equals the
pure pipeline: upsert, stable insertion sort descending, truncate. -/
theorem update_local_entries_char (entries : List LeaderboardEntry)
    (username : Str) (total : FVal)
    (hno : ∀ e ∈ entries, e.total_minutes ≠ .nan) (ht : total ≠ .nan) :
    update_local_entries entries username total =
      some (List.take 25
        (List.insertionSort entryGE (upsertEntry username total entries))) := by
  have hup := upsertEntry_noNan username ht entries hno
  rw [update_local_entries, sortOptCmp_eq_insertionSort _ hup,
    Option.map_some']

/-- At most one entry per case-insensitive name: pairwise distinct
normalized usernames. -/
def ciDistinct (l : List LeaderboardEntry) : Prop :=
  List.Pairwise (fun a b => nrm a.username ≠ nrm b.username) l

instance (l : List LeaderboardEntry) : Decidable (ciDistinct l) :=
  inferInstanceAs (Decidable (List.Pairwise _ l))

theorem upsertEntry_of_no_match (u : Str) (t : FVal) :
    ∀ l : List LeaderboardEntry, (∀ e ∈ l, nrm e.username ≠ nrm u) →
      upsertEntry u t l = l ++ [⟨trimStr u, t⟩] := by
  intro l
  induction l with
  | nil => intro _; rfl
  | cons y ys ih =>
    intro h
    have hm : ¬ eqIgnoreAsciiCase y.username u = true := by
      rw [eqIgnoreAsciiCase_iff]
      exact h y (List.mem_cons_self _ _)
    simp only [upsertEntry, if_neg hm, List.cons_append,
      ih (fun e he => h e (List.mem_cons_of_mem _ he))]

theorem upsertEntry_of_match_value (u : Str) (t : FVal) :
    ∀ l : List LeaderboardEntry, ciDistinct l →
      ∀ x ∈ l, nrm x.username = nrm u → x.total_minutes = t →
        upsertEntry u t l = l := by
  intro l
  induction l with
  | nil =>
    intro _ x hx
    cases hx
  | cons y ys ih =>
    intro hdis x hx hmatch hval
    rcases List.mem_cons.mp hx with rfl | hx'
    · have hm : eqIgnoreAsciiCase x.username u = true :=
        (eqIgnoreAsciiCase_iff _ _).mpr hmatch
      simp only [upsertEntry, if_pos hm]
      rw [← hval]
    · have hy : nrm y.username ≠ nrm u := by
        have hne := (List.pairwise_cons.mp hdis).1 x hx'
        rw [hmatch] at hne
        exact hne
      have hm : ¬ eqIgnoreAsciiCase y.username u = true := by
        rw [eqIgnoreAsciiCase_iff]
        exact hy
      simp only [upsertEntry, if_neg hm,
        ih (List.pairwise_cons.mp hdis).2 x hx' hmatch hval]

theorem upsertEntry_username_mem (u : Str) (t : FVal) :
    ∀ l : List LeaderboardEntry, ∀ z ∈ upsertEntry u t l,
      (∃ w ∈ l, z.username = w.username) ∨ z.username = trimStr u := by
  intro l
  induction l with
  | nil =>
    intro z hz
    simp only [upsertEntry, List.mem_singleton] at hz
    subst hz
    right
    rfl
  | cons y ys ih =>
    intro z hz
    simp only [upsertEntry] at hz
    by_cases hm : eqIgnoreAsciiCase y.username u = true
    · rw [if_pos hm] at hz
      rcases List.mem_cons.mp hz with rfl | hz'
      · exact Or.inl ⟨y, List.mem_cons_self _ _, rfl⟩
      · exact Or.inl ⟨z, List.mem_cons_of_mem y hz', rfl⟩
    · rw [if_neg hm] at hz
      rcases List.mem_cons.mp hz with rfl | hz'
      · exact Or.inl ⟨z, List.mem_cons_self _ _, rfl⟩
      · rcases ih z hz' with ⟨w, hw, he⟩ | he
        · exact Or.inl ⟨w, List.mem_cons_of_mem y hw, he⟩
        · exact Or.inr he

/-- The core structure of an upsert on a clean list: the updated/pushed
entry is in the result with the submitted value, the result stays clean,
and no other result entry matches the submitted name. -/
theorem upsertEntry_clean (u : Str) (t : FVal) (htrim : trimStr u = u) :
    ∀ l : List LeaderboardEntry, ciDistinct l →
      ∃ x, x ∈ upsertEntry u t l ∧ nrm x.username = nrm u ∧
        x.total_minutes = t ∧ ciDistinct (upsertEntry u t l) ∧
        ∀ y ∈ upsertEntry u t l, y ≠ x → nrm y.username ≠ nrm u := by
  intro l
  induction l with
  | nil =>
    intro _
    refine ⟨⟨trimStr u, t⟩, by simp [upsertEntry], ?_, rfl, ?_, ?_⟩
    · rw [htrim]
    · simp [upsertEntry, ciDistinct]
    · intro y hy hne
      simp only [upsertEntry, List.mem_singleton] at hy
      exact absurd hy hne
  | cons y ys ih =>
    intro hdis
    by_cases hm : eqIgnoreAsciiCase y.username u = true
    · have hmatch : nrm y.username = nrm u := (eqIgnoreAsciiCase_iff _ _).mp hm
      refine ⟨{ y with total_minutes := t }, ?_, hmatch, rfl, ?_, ?_⟩
      · simp [upsertEntry, if_pos hm]
      · simp only [upsertEntry, if_pos hm]
        exact List.Pairwise.cons (fun z hz =>
          (List.pairwise_cons.mp hdis).1 z hz) (List.pairwise_cons.mp hdis).2
      · intro z hz hne
        simp only [upsertEntry, if_pos hm] at hz
        rcases List.mem_cons.mp hz with rfl | hz'
        · exact absurd rfl hne
        · intro hzu
          have := (List.pairwise_cons.mp hdis).1 z hz'
          rw [hzu, hmatch] at this
          exact this rfl
    · have hy : nrm y.username ≠ nrm u := fun h =>
        hm ((eqIgnoreAsciiCase_iff _ _).mpr h)
      obtain ⟨x, hx, hxu, hxt, hxdis, hxother⟩ :=
        ih (List.pairwise_cons.mp hdis).2
      refine ⟨x, ?_, hxu, hxt, ?_, ?_⟩
      · simp only [upsertEntry, if_neg hm]
        exact List.mem_cons_of_mem y hx
      · simp only [upsertEntry, if_neg hm]
        refine List.Pairwise.cons ?_ hxdis
        intro z hz
        rcases upsertEntry_username_mem u t ys z hz with ⟨w, hw, he⟩ | he
        · have := (List.pairwise_cons.mp hdis).1 w hw
          rw [← he] at this
          exact this
        · rw [he, htrim]
          exact hy
      · intro z hz hne
        simp only [upsertEntry, if_neg hm] at hz
        rcases List.mem_cons.mp hz with rfl | hz'
        · exact hy
        · exact hxother z hz' hne

theorem ciDistinct_of_perm {l₁ l₂ : List LeaderboardEntry} (h : l₁.Perm l₂)
    (hd : ciDistinct l₁) : ciDistinct l₂ :=
  (List.Perm.pairwise_iff (fun hne => Ne.symm hne) h).mp hd

/-- C3 (amended): on a list whose entries have pairwise distinct
case-insensitive names and NaN-free totals, submitting a whitespace-free
name twice with the same non-NaN total gives the same list as submitting
once; the result again has at most one entry per case-insensitive name,
and every entry matching the submitted name carries the submitted total. -/
theorem c3_update_local_entries_idempotent (es : List LeaderboardEntry)
    (u : Str) (t : FVal) (htrim : trimStr u = u) (hdis : ciDistinct es)
    (hno : ∀ e ∈ es, e.total_minutes ≠ .nan) (ht : t ≠ .nan) :
    ∃ l₁, update_local_entries es u t = some l₁ ∧
      update_local_entries l₁ u t = some l₁ ∧
      ciDistinct l₁ ∧
      ∀ e ∈ l₁, nrm e.username = nrm u → e.total_minutes = t := by
  obtain ⟨x, hxmem, hxu, hxt, hdis', hother⟩ := upsertEntry_clean u t htrim es hdis
  set es' := upsertEntry u t es with hes'
  set S := List.insertionSort entryGE es' with hS
  have hperm : S.Perm es' := List.perm_insertionSort _ _
  have hsortedS : List.Sorted entryGE S := List.sorted_insertionSort _ _
  have hdisS : ciDistinct S := ciDistinct_of_perm hperm.symm hdis'
  have hnoS : ∀ e ∈ S, e.total_minutes ≠ .nan := fun e he =>
    upsertEntry_noNan u ht es hno e (hperm.mem_iff.mp he)
  set l₁ := List.take 25 S with hl₁
  have hfirst : update_local_entries es u t = some l₁ :=
    update_local_entries_char es u t hno ht
  have hsubl : l₁.Sublist S := List.take_sublist _ _
  have hdisl₁ : ciDistinct l₁ := List.Pairwise.sublist hsubl hdisS
  have hsortedl₁ : List.Sorted entryGE l₁ := List.Pairwise.sublist hsubl hsortedS
  have hnol₁ : ∀ e ∈ l₁, e.total_minutes ≠ .nan := fun e he =>
    hnoS e (hsubl.subset he)
  have hvalmatch : ∀ e ∈ l₁, nrm e.username = nrm u → e.total_minutes = t := by
    intro e he henrm
    by_cases hex : e = x
    · rw [hex]
      exact hxt
    · exact absurd henrm (hother e (hperm.mem_iff.mp (hsubl.subset he)) hex)
  refine ⟨l₁, hfirst, ?_, hdisl₁, hvalmatch⟩
  by_cases hxin : x ∈ l₁
  · have hup2 : upsertEntry u t l₁ = l₁ :=
      upsertEntry_of_match_value u t l₁ hdisl₁ x hxin hxu hxt
    have hchar2 := update_local_entries_char l₁ u t hnol₁ ht
    rw [hup2, List.Sorted.insertionSort_eq hsortedl₁,
      List.take_of_length_le (by rw [hl₁, List.length_take]; exact min_le_left _ _)]
      at hchar2
    exact hchar2
  · have hxS : x ∈ S := hperm.mem_iff.mpr hxmem
    have hsplit : List.take 25 S ++ List.drop 25 S = S := List.take_append_drop _ _
    have hxdrop : x ∈ List.drop 25 S := by
      have hx2 : x ∈ List.take 25 S ++ List.drop 25 S := by
        rw [hsplit]
        exact hxS
      rcases List.mem_append.mp hx2 with h | h
      · exact absurd h hxin
      · exact h
    have hlen : l₁.length = 25 := by
      have hd : List.drop 25 S ≠ [] := fun hnil => by
        rw [hnil] at hxdrop
        cases hxdrop
      have h25 : 25 ≤ S.length := by
        by_contra hlt
        push_neg at hlt
        exact hd (List.drop_eq_nil_of_le (le_of_lt hlt))
      rw [hl₁, List.length_take]
      exact min_eq_left h25
    have hnomatch : ∀ e ∈ l₁, nrm e.username ≠ nrm u := by
      intro e he heq
      by_cases hex : e = x
      · rw [hex] at he
        exact hxin he
      · exact hother e (hperm.mem_iff.mp (hsubl.subset he)) hex heq
    have hup2 : upsertEntry u t l₁ = l₁ ++ [⟨trimStr u, t⟩] :=
      upsertEntry_of_no_match u t l₁ hnomatch
    have hcross : ∀ y ∈ l₁, entryGE y ⟨trimStr u, t⟩ := by
      intro y hy
      have hpairS : List.Pairwise entryGE (List.take 25 S ++ List.drop 25 S) := by
        rw [hsplit]
        exact hsortedS
      have hge := (List.pairwise_append.mp hpairS).2.2 y hy x hxdrop
      show fkey t ≤ fkey y.total_minutes
      rw [← hxt]
      exact hge
    have hsorted2 : List.Sorted entryGE (l₁ ++ [⟨trimStr u, t⟩]) := by
      refine List.pairwise_append.mpr ⟨hsortedl₁, by simp, ?_⟩
      intro a ha b hb
      rw [List.mem_singleton] at hb
      subst hb
      exact hcross a ha
    have htake2 : List.take 25 (l₁ ++ [⟨trimStr u, t⟩]) = l₁ := by
      conv_lhs => rw [← hlen]
      exact List.take_left _ _
    have hchar2 := update_local_entries_char l₁ u t hnol₁ ht
    rw [hup2, List.Sorted.insertionSort_eq hsorted2, htake2] at hchar2
    exact hchar2

/-- C3 counterexample: with surrounding whitespace in the submitted name
(matching uses the raw name, insertion the trimmed one), two identical
submissions produce a duplicated entry, so the double application differs
from the single one; moreover on an input list holding two
case-insensitively equal names the result keeps both, so the "at most one
entry per case-insensitive name" part also fails for raw inputs. -/
theorem c3_update_local_entries_not_idempotent :
    update_local_entries [] ([' ', 'a', ' ']) (.fin 1) =
      some [⟨['a'], .fin 1⟩] ∧
    update_local_entries [⟨['a'], .fin 1⟩] ([' ', 'a', ' ']) (.fin 1) =
      some [⟨['a'], .fin 1⟩, ⟨['a'], .fin 1⟩] ∧
    ([⟨['a'], .fin 1⟩, ⟨['a'], .fin 1⟩] : List LeaderboardEntry) ≠
      [⟨['a'], .fin 1⟩] ∧
    update_local_entries [⟨['a'], .fin 5⟩, ⟨['A'], .fin 9⟩] (['b']) (.fin 1) =
      some [⟨['A'], .fin 9⟩, ⟨['a'], .fin 5⟩, ⟨['b'], .fin 1⟩] ∧
    nrm ['A'] = nrm ['a'] := by
  decide

/-- C3 witness: the amended theorem applied at a concrete input. -/
theorem c3_update_local_entries_witness :
    (trimStr ['a'] = ['a'] ∧ ciDistinct [⟨['b'], .fin 3⟩] ∧
      (∀ e ∈ ([⟨['b'], .fin 3⟩] : List LeaderboardEntry),
        e.total_minutes ≠ .nan) ∧ (FVal.fin 7) ≠ .nan) ∧
    (∃ l₁, update_local_entries [⟨['b'], .fin 3⟩] ['a'] (.fin 7) = some l₁ ∧
      update_local_entries l₁ ['a'] (.fin 7) = some l₁ ∧
      ciDistinct l₁ ∧
      ∀ e ∈ l₁, nrm e.username = nrm ['a'] → e.total_minutes = .fin 7) :=
  ⟨⟨by decide, by decide, by decide, by decide⟩,
    c3_update_local_entries_idempotent [⟨['b'], .fin 3⟩] ['a'] (.fin 7)
      (by decide) (by decide) (by decide) (by decide)⟩

/-- C10: a NaN total reaches the comparator and the sort panics: both for
a NaN submission against a clean list and for a clean submission against a
stored NaN entry; through the `Local` client the only guard is the blank
username check, so the call reaches the sort and panics rather than being
rejected. -/
theorem c10_nan_reaches_sort_and_panics :
    update_local_entries [⟨['a'], .fin 5⟩] ['b'] .nan = none ∧
    submit_total_minutes_local [⟨['a'], .fin 5⟩] ['b'] .nan = .panicked ∧
    update_local_entries [⟨['a'], .nan⟩] ['b'] (.fin 5) = none := by
  decide

theorem FVal.ne_nan_of_isFinite {t : FVal} (h : t.isFinite = true) :
    t ≠ .nan := by
  cases t <;> simp_all [FVal.isFinite]

/-- C4: the submit endpoint answers a client error (HTTP 400) exactly when
the trimmed username is empty or the total is non-finite or negative; any
other request is answered with HTTP 204 and no body, and the persisted
list is the case-insensitive upsert of the trimmed name, re-sorted
descending and truncated to 25. -/
theorem c4_submit_handler_validation (entries : List LeaderboardEntry)
    (username : Str) (t : FVal)
    (hno : ∀ e ∈ entries, e.total_minutes ≠ .nan) :
    ((∃ c m, submit_handler entries username t = .clientError c m) ↔
      ((trimStr username).isEmpty = true ∨ t.isFinite = false ∨
        t.isNeg = true)) ∧
    (((trimStr username).isEmpty = false ∧ t.isFinite = true ∧
        t.isNeg = false) →
      submit_handler entries username t =
        .noContent 204 (List.take 25 (List.insertionSort entryGE
          (upsertEntry (trimStr username) t entries)))) := by
  by_cases h1 : (trimStr username).isEmpty = true
  · have hres : submit_handler entries username t =
        .clientError 400 (String.toList (r"Username is required")) := by
      simp only [submit_handler, h1, if_true]
    refine ⟨⟨fun _ => Or.inl h1, fun _ => ⟨400, _, hres⟩⟩, ?_⟩
    rintro ⟨hc, -, -⟩
    rw [h1] at hc
    cases hc
  · by_cases h2 : (!t.isFinite || t.isNeg) = true
    · have hres : submit_handler entries username t =
          .clientError 400
            (String.toList (r"total_minutes must be a non-negative number")) := by
        simp only [submit_handler, if_neg h1, h2, if_true]
      have hcases : t.isFinite = false ∨ t.isNeg = true := by
        rcases Bool.or_eq_true_iff.mp h2 with h | h
        · exact Or.inl (by simp at h; exact h)
        · exact Or.inr h
      refine ⟨⟨fun _ => Or.inr hcases, fun _ => ⟨400, _, hres⟩⟩, ?_⟩
      rintro ⟨-, hf, hn⟩
      rw [hf, hn] at h2
      cases h2
    · have hfin : t.isFinite = true := by
        rcases hv : t.isFinite with _ | _
        · rw [hv] at h2
          exact absurd rfl h2
        · rfl
      have hneg : t.isNeg = false := by
        rcases hv : t.isNeg with _ | _
        · rfl
        · rw [hv, Bool.or_true] at h2
          exact absurd rfl h2
      have ht : t ≠ .nan := FVal.ne_nan_of_isFinite hfin
      have hres : submit_handler entries username t =
          .noContent 204 (List.take 25 (List.insertionSort entryGE
            (upsertEntry (trimStr username) t entries))) := by
        simp only [submit_handler, if_neg h1, if_neg h2,
          update_local_entries_char entries (trimStr username) t hno ht]
      refine ⟨⟨?_, ?_⟩, fun _ => hres⟩
      · rintro ⟨c, m, hcm⟩
        rw [hres] at hcm
        cases hcm
      · rintro (h | h | h)
        · exact absurd h h1
        · rw [hfin] at h
          cases h
        · rw [hneg] at h
          cases h

/-- C4 witness: the theorem applied at a concrete accepted request. -/
theorem c4_submit_handler_witness :
    (∀ e ∈ ([] : List LeaderboardEntry), e.total_minutes ≠ .nan) ∧
    (((∃ c m, submit_handler [] ['a'] (.fin 5) = .clientError c m) ↔
      ((trimStr ['a']).isEmpty = true ∨ (FVal.fin 5).isFinite = false ∨
        (FVal.fin 5).isNeg = true)) ∧
    (((trimStr ['a']).isEmpty = false ∧ (FVal.fin 5).isFinite = true ∧
        (FVal.fin 5).isNeg = false) →
      submit_handler [] ['a'] (.fin 5) =
        .noContent 204 (List.take 25 (List.insertionSort entryGE
          (upsertEntry (trimStr ['a']) (.fin 5) []))))) :=
  ⟨by decide, c4_submit_handler_validation [] ['a'] (.fin 5) (by decide)⟩

/-- The endpoint preference order asserted by the claim: environment URL
first, then the compiled-in default, then the hardcoded fallback. -/
def claimEndpointOrder (envUrl compiledUrl : Option Str) : Option Str :=
  (runtime_default_endpoint envUrl).orElse (fun _ =>
    (baked_in_default_endpoint compiledUrl).orElse (fun _ =>
      fallback_global_endpoint))

/-- The endpoint order the code actually implements, as an explicit
ordered candidate list: compiled-in default, then environment URL, then
the hardcoded fallback. -/
def amendedEndpointOrder (envUrl compiledUrl : Option Str) : Str :=
  match baked_in_default_endpoint compiledUrl with
  | some ep => ep
  | none =>
    match runtime_default_endpoint envUrl with
    | some ep => ep
    | none => FALLBACK_GLOBAL_ENDPOINT

/-- C2 counterexample: with both an environment URL and a compiled-in
default present and no override, `auto` resolves to the compiled-in
default, not to the environment URL that the claim puts first. -/
theorem c2_endpoint_order_counterexample :
    leaderboard_client_auto (some (String.toList (r"http://env.example")))
        (some (String.toList (r"http://compiled.example"))) none =
      .remote (String.toList (r"http://compiled.example")) none ∧
    claimEndpointOrder (some (String.toList (r"http://env.example")))
        (some (String.toList (r"http://compiled.example"))) =
      some (String.toList (r"http://env.example")) ∧
    String.toList (r"http://compiled.example") ≠
      String.toList (r"http://env.example") := by
  refine ⟨by decide, by decide, by decide⟩

theorem global_remote_endpoint_resolves (envUrl compiledUrl : Option Str) :
    global_remote_endpoint envUrl compiledUrl =
      some (amendedEndpointOrder envUrl compiledUrl) := by
  rcases hb : baked_in_default_endpoint compiledUrl with _ | ep
  · rcases hr : runtime_default_endpoint envUrl with _ | ep'
    · rw [global_remote_endpoint, amendedEndpointOrder, hb, hr]
      rfl
    · rw [global_remote_endpoint, amendedEndpointOrder, hb, hr]
      rfl
  · rw [global_remote_endpoint, amendedEndpointOrder, hb]
    rfl

/-- C2 (amended): with no override, or with the special override values
`default` / `builtin`, the client is always a remote one and its endpoint
is resolved in this order: the compiled-in default URL first, then the
environment override URL, then the hardcoded fallback URL; the local file
would be used only if none resolved, which never happens because the
fallback is unconditional. -/
theorem c2_endpoint_resolution_order (envUrl compiledUrl : Option Str)
    (ov : Option Str)
    (hov : ov = none ∨ ov = some (String.toList (r"default")) ∨
      ov = some (String.toList (r"builtin"))) :
    leaderboard_client_auto envUrl compiledUrl ov =
      .remote (amendedEndpointOrder envUrl compiledUrl) none := by
  rcases hov with rfl | rfl | rfl
  · simp only [leaderboard_client_auto,
      global_remote_endpoint_resolves envUrl compiledUrl]
  · have hc : (eqIgnoreAsciiCase (trimStr (String.toList (r"default")))
        (String.toList (r"default")) ||
      eqIgnoreAsciiCase (trimStr (String.toList (r"default")))
        (String.toList (r"builtin"))) = true := by decide
    simp only [leaderboard_client_auto, hc, if_true,
      global_remote_endpoint_resolves envUrl compiledUrl]
  · have hc : (eqIgnoreAsciiCase (trimStr (String.toList (r"builtin")))
        (String.toList (r"default")) ||
      eqIgnoreAsciiCase (trimStr (String.toList (r"builtin")))
        (String.toList (r"builtin"))) = true := by decide
    simp only [leaderboard_client_auto, hc, if_true,
      global_remote_endpoint_resolves envUrl compiledUrl]

/-- C2 witness: the amended theorem applied at a concrete input. -/
theorem c2_endpoint_resolution_witness :
    ((none : Option Str) = none ∨
      (none : Option Str) = some (String.toList (r"default")) ∨
      (none : Option Str) = some (String.toList (r"builtin"))) ∧
    leaderboard_client_auto (some (String.toList (r"http://env.example")))
        none none =
      .remote (amendedEndpointOrder
        (some (String.toList (r"http://env.example"))) none) none :=
  ⟨Or.inl rfl,
    c2_endpoint_resolution_order
      (some (String.toList (r"http://env.example"))) none none (Or.inl rfl)⟩

theorem fkey_fin_inj {p q : ℚ} (h : fkey (.fin p) = fkey (.fin q)) : p = q :=
  WithTop.coe_injective (WithBot.coe_injective h)

theorem sorted_perm_unique :
    ∀ l₁ l₂ : List LeaderboardEntry, l₁.Perm l₂ → List.Sorted entryGE l₁ →
      List.Sorted entryGE l₂ →
      (l₁.map (fun e => fkey e.total_minutes)).Nodup → l₁ = l₂ := by
  intro l₁
  induction l₁ with
  | nil =>
    intro l₂ h _ _ _
    exact (List.Perm.eq_nil h.symm).symm
  | cons a t₁ ih =>
    intro l₂ h s₁ s₂ hnd
    cases l₂ with
    | nil => cases List.Perm.eq_nil h
    | cons b t₂ =>
      rw [List.map_cons] at hnd
      have hab : a = b := by
        by_contra hne
        have hamem : a ∈ b :: t₂ := h.mem_iff.mp (List.mem_cons_self _ _)
        have hbmem : b ∈ a :: t₁ := h.mem_iff.mpr (List.mem_cons_self _ _)
        have ha2 : a ∈ t₂ := by
          rcases List.mem_cons.mp hamem with h' | h'
          · exact absurd h' hne
          · exact h'
        have hb1 : b ∈ t₁ := by
          rcases List.mem_cons.mp hbmem with h' | h'
          · exact absurd h'.symm hne
          · exact h'
        have h1 : entryGE a b := (List.pairwise_cons.mp s₁).1 b hb1
        have h2 : entryGE b a := (List.pairwise_cons.mp s₂).1 a ha2
        have hk : fkey a.total_minutes = fkey b.total_minutes :=
          le_antisymm h2 h1
        have hmem : fkey b.total_minutes ∈
            t₁.map (fun e => fkey e.total_minutes) :=
          List.mem_map_of_mem _ hb1
        rw [← hk] at hmem
        exact (List.nodup_cons.mp hnd).1 hmem
      subst hab
      have hrest := ih t₂ h.cons_inv (List.pairwise_cons.mp s₁).2
        (List.pairwise_cons.mp s₂).2 (List.nodup_cons.mp hnd).2
      rw [hrest]

theorem take_orderedInsert_take (x : LeaderboardEntry) :
    ∀ (A : List LeaderboardEntry) (k : ℕ),
      List.take k (List.orderedInsert entryGE x (List.take k A)) =
        List.take k (List.orderedInsert entryGE x A) := by
  intro A
  induction A with
  | nil =>
    intro k
    rw [List.take_nil]
  | cons a A' ih =>
    intro k
    cases k with
    | zero => rfl
    | succ k' =>
      rw [List.take_succ_cons]
      by_cases hr : entryGE x a
      · rw [List.orderedInsert, if_pos hr, List.orderedInsert, if_pos hr,
          List.take_succ_cons, List.take_succ_cons]
        cases k' with
        | zero => rfl
        | succ k'' =>
          rw [List.take_succ_cons, List.take_succ_cons, List.take_take,
            min_eq_left (Nat.le_succ k'')]
      · rw [List.orderedInsert, if_neg hr, List.orderedInsert, if_neg hr,
          List.take_succ_cons, List.take_succ_cons, ih k']

theorem insertionSort_append_singleton (L : List LeaderboardEntry)
    (x : LeaderboardEntry)
    (hnd : ((L ++ [x]).map (fun e => fkey e.total_minutes)).Nodup) :
    List.insertionSort entryGE (L ++ [x]) =
      List.orderedInsert entryGE x (List.insertionSort entryGE L) := by
  apply sorted_perm_unique
  · have h1 : (List.insertionSort entryGE (L ++ [x])).Perm (L ++ [x]) :=
      List.perm_insertionSort _ _
    have h2 : (L ++ [x]).Perm (x :: L) := List.perm_append_singleton _ _
    have h3 : (x :: L).Perm (x :: List.insertionSort entryGE L) :=
      List.Perm.cons _ (List.perm_insertionSort _ _).symm
    have h4 : (List.orderedInsert entryGE x
        (List.insertionSort entryGE L)).Perm
        (x :: List.insertionSort entryGE L) :=
      List.perm_orderedInsert _ _ _
    exact ((h1.trans h2).trans h3).trans h4.symm
  · exact List.sorted_insertionSort _ _
  · exact List.Sorted.orderedInsert _ _ (List.sorted_insertionSort _ _)
  · exact ((List.Perm.map _
      (List.perm_insertionSort entryGE (L ++ [x]))).nodup_iff).mpr hnd

theorem topk_step (E : List LeaderboardEntry) (x : LeaderboardEntry)
    (hnd : ((E ++ [x]).map (fun e => fkey e.total_minutes)).Nodup) :
    List.take 25 (List.insertionSort entryGE
      (List.take 25 (List.insertionSort entryGE E) ++ [x])) =
    List.take 25 (List.insertionSort entryGE (E ++ [x])) := by
  set A := List.insertionSort entryGE E with hA
  set st := List.take 25 A with hst
  have hndA : ((A ++ [x]).map (fun e => fkey e.total_minutes)).Nodup := by
    have hperm : (A ++ [x]).Perm (E ++ [x]) :=
      (List.perm_insertionSort entryGE E).append_right [x]
    exact ((hperm.map _).nodup_iff).mpr hnd
  have hsub : (st ++ [x]).Sublist (A ++ [x]) :=
    (List.take_sublist _ _).append_right [x]
  have hndst : ((st ++ [x]).map (fun e => fkey e.total_minutes)).Nodup :=
    List.Nodup.sublist (hsub.map _) hndA
  have hstsorted : List.Sorted entryGE st :=
    List.Pairwise.sublist (List.take_sublist _ _)
      (List.sorted_insertionSort _ _)
  rw [insertionSort_append_singleton st x hndst,
    List.Sorted.insertionSort_eq hstsorted,
    insertionSort_append_singleton E x hnd]
  exact take_orderedInsert_take x A 25

/-- The entry created from one submission pair. -/
def subEntry (p : Str × ℚ) : LeaderboardEntry := ⟨p.1, .fin p.2⟩

/-- Driver for C5: submit (name, minutes) pairs one at a time through
`update_local_entries`, starting from an empty list; a panic at any step
aborts the whole run. -/
def submitSeq (subs : List (Str × ℚ)) : Option (List LeaderboardEntry) :=
  subs.foldlM (fun st nv => update_local_entries st nv.1 (.fin nv.2)) []

theorem submitSeq_invariant :
    ∀ (subs prev : List (Str × ℚ)),
      List.Pairwise (fun a b => nrm a.1 ≠ nrm b.1) (prev ++ subs) →
      (∀ p ∈ prev ++ subs, trimStr p.1 = p.1) →
      (((prev ++ subs).map subEntry).map
        (fun e => fkey e.total_minutes)).Nodup →
      List.foldlM (fun st nv => update_local_entries st nv.1 (.fin nv.2))
        (List.take 25 (List.insertionSort entryGE (prev.map subEntry)))
        subs =
      some (List.take 25
        (List.insertionSort entryGE ((prev ++ subs).map subEntry))) := by
  intro subs
  induction subs with
  | nil =>
    intro prev _ _ _
    rw [List.append_nil]
    rfl
  | cons nv rest ih =>
    intro prev hnames htrim hkeys
    set E := prev.map subEntry with hE
    set st := List.take 25 (List.insertionSort entryGE E) with hst
    have hmem_st : ∀ e ∈ st, ∃ p ∈ prev, e = subEntry p := by
      intro e he
      have heA : e ∈ List.insertionSort entryGE E :=
        (List.take_sublist _ _).subset he
      have heE : e ∈ E := (List.perm_insertionSort entryGE E).mem_iff.mp heA
      rw [hE] at heE
      obtain ⟨p, hp, hpe⟩ := List.mem_map.mp heE
      exact ⟨p, hp, hpe.symm⟩
    have hnonan : ∀ e ∈ st, e.total_minutes ≠ .nan := by
      intro e he
      obtain ⟨p, hp, rfl⟩ := hmem_st e he
      simp [subEntry]
    have hnomatch : ∀ e ∈ st, nrm e.username ≠ nrm nv.1 := by
      intro e he
      obtain ⟨p, hp, rfl⟩ := hmem_st e he
      exact (List.pairwise_append.mp hnames).2.2 p hp nv
        (List.mem_cons_self _ _)
    have htrimnv : trimStr nv.1 = nv.1 :=
      htrim nv (List.mem_append_right prev (List.mem_cons_self _ _))
    have hkeys' : (((prev ++ [nv]).map subEntry).map
        (fun e => fkey e.total_minutes)).Nodup := by
      have hsubl : (prev ++ [nv]).Sublist (prev ++ nv :: rest) :=
        List.Sublist.append_left
          (List.cons_sublist_cons.mpr (List.nil_sublist rest)) prev
      exact List.Nodup.sublist ((hsubl.map subEntry).map _) hkeys
    have hstep : update_local_entries st nv.1 (.fin nv.2) =
        some (List.take 25 (List.insertionSort entryGE
          ((prev ++ [nv]).map subEntry))) := by
      rw [update_local_entries_char st nv.1 (.fin nv.2) hnonan (by simp),
        upsertEntry_of_no_match nv.1 (.fin nv.2) st hnomatch, htrimnv]
      congr 1
      have hmapapp : (prev ++ [nv]).map subEntry = E ++ [subEntry nv] := by
        rw [List.map_append, hE]
        rfl
      rw [hmapapp]
      rw [hmapapp] at hkeys'
      exact topk_step E (subEntry nv) hkeys'
    have hfold : List.foldlM
        (fun st nv => update_local_entries st nv.1 (.fin nv.2)) st
        (nv :: rest) =
        (update_local_entries st nv.1 (.fin nv.2)).bind
          (fun st' => List.foldlM
            (fun st nv => update_local_entries st nv.1 (.fin nv.2))
            st' rest) := by
      simp [List.foldlM]
    rw [hfold, hstep, Option.some_bind]
    have happly := ih (prev ++ [nv])
      (by rw [← List.append_cons]; exact hnames)
      (by rw [← List.append_cons]; exact htrim)
      (by rw [← List.append_cons]; exact hkeys)
    rw [← List.append_cons] at happly
    exact happly

/-- C5: starting from an empty leaderboard, 30 submissions with pairwise
case-insensitively distinct whitespace-free names and pairwise distinct
totals leave exactly 25 entries: the initial segment of length 25 of the
descending sort of all 30 submissions (the 25 highest totals), strictly
descending by total. -/
theorem c5_thirty_submissions_keep_top25 (subs : List (Str × ℚ))
    (hlen : subs.length = 30)
    (hnames : List.Pairwise (fun a b => nrm a.1 ≠ nrm b.1) subs)
    (htrim : ∀ p ∈ subs, trimStr p.1 = p.1)
    (hvals : List.Pairwise (fun a b => a.2 ≠ b.2) subs) :
    submitSeq subs =
      some (List.take 25 (List.insertionSort entryGE (subs.map subEntry))) ∧
    (List.take 25 (List.insertionSort entryGE (subs.map subEntry))).length
      = 25 ∧
    List.Pairwise (fun a b => fkey b.total_minutes < fkey a.total_minutes)
      (List.take 25 (List.insertionSort entryGE (subs.map subEntry))) := by
  have hkeys : ((subs.map subEntry).map
      (fun e => fkey e.total_minutes)).Nodup := by
    rw [List.map_map]
    have hp : List.Pairwise (fun a b : Str × ℚ =>
        fkey (FVal.fin a.2) ≠ fkey (FVal.fin b.2)) subs :=
      hvals.imp (fun hab hk => hab (fkey_fin_inj hk))
    exact List.pairwise_map.mpr hp
  refine ⟨?_, ?_, ?_⟩
  · have hinv := submitSeq_invariant subs []
      (by rw [List.nil_append]; exact hnames)
      (by rw [List.nil_append]; exact htrim)
      (by rw [List.nil_append]; exact hkeys)
    rw [List.nil_append] at hinv
    exact hinv
  · have hlenS : (List.insertionSort entryGE (subs.map subEntry)).length
        = 30 := by
      rw [(List.perm_insertionSort entryGE _).length_eq, List.length_map,
        hlen]
    rw [List.length_take, hlenS]
    decide
  · have hsortedS : List.Sorted entryGE
        (List.insertionSort entryGE (subs.map subEntry)) :=
      List.sorted_insertionSort _ _
    have hndS : ((List.insertionSort entryGE (subs.map subEntry)).map
        (fun e => fkey e.total_minutes)).Nodup :=
      ((List.Perm.map _ (List.perm_insertionSort entryGE _)).nodup_iff).mpr
        hkeys
    have h1 : List.Sorted entryGE (List.take 25
        (List.insertionSort entryGE (subs.map subEntry))) :=
      List.Pairwise.sublist (List.take_sublist _ _) hsortedS
    have h2 : ((List.take 25
        (List.insertionSort entryGE (subs.map subEntry))).map
        (fun e => fkey e.total_minutes)).Nodup :=
      List.Nodup.sublist ((List.take_sublist _ _).map _) hndS
    have h3 : List.Pairwise (fun a b : LeaderboardEntry =>
        fkey a.total_minutes ≠ fkey b.total_minutes)
        (List.take 25 (List.insertionSort entryGE (subs.map subEntry))) :=
      List.pairwise_map.mp h2
    exact (h1.and h3).imp
      (fun hab => lt_of_le_of_ne hab.1 hab.2.symm)

/-- Thirty sample submissions with distinct lowercase names and distinct
totals, for the C5 witness. -/
def c5SampleSubs : List (Str × ℚ) :=
  [(['a'], 1), (['b'], 2), (['c'], 3), (['d'], 4), (['e'], 5), (['f'], 6),
   (['g'], 7), (['h'], 8), (['i'], 9), (['j'], 10), (['k'], 11),
   (['l'], 12), (['m'], 13), (['n'], 14), (['o'], 15), (['p'], 16),
   (['q'], 17), (['r'], 18), (['s'], 19), (['t'], 20), (['u'], 21),
   (['v'], 22), (['w'], 23), (['x'], 24), (['y'], 25), (['z'], 26),
   (['a', 'a'], 27), (['a', 'b'], 28), (['a', 'c'], 29), (['a', 'd'], 30)]

/-- C5 witness: the theorem applied at thirty concrete submissions. -/
theorem c5_thirty_submissions_witness :
    (c5SampleSubs.length = 30 ∧
      List.Pairwise (fun a b => nrm a.1 ≠ nrm b.1) c5SampleSubs ∧
      (∀ p ∈ c5SampleSubs, trimStr p.1 = p.1) ∧
      List.Pairwise (fun a b => a.2 ≠ b.2) c5SampleSubs) ∧
    (submitSeq c5SampleSubs =
      some (List.take 25
        (List.insertionSort entryGE (c5SampleSubs.map subEntry))) ∧
    (List.take 25
      (List.insertionSort entryGE (c5SampleSubs.map subEntry))).length
      = 25 ∧
    List.Pairwise (fun a b => fkey b.total_minutes < fkey a.total_minutes)
      (List.take 25
        (List.insertionSort entryGE (c5SampleSubs.map subEntry)))) :=
  ⟨⟨by decide, by decide, by decide, by decide⟩,
    c5_thirty_submissions_keep_top25 c5SampleSubs (by decide) (by decide)
      (by decide) (by decide)⟩

/-! ### Time-stamps, sessions and the storage layer

`chrono::DateTime<Local>` is modelled by its civil components plus the
local UTC offset, the data that RFC 3339 rendering and parsing exchange;
the instant of a value (for chrono subtraction) is derived with the
standard civil-from-days arithmetic.  Years are restricted to four
digits, matching the fixed-width `%Y` rendering. -/

/-- Civil date-time with offset: the model of `chrono::DateTime<Local>`. -/
structure DT where
  year : ℕ
  month : ℕ
  day : ℕ
  hour : ℕ
  minute : ℕ
  second : ℕ
  nano : ℕ
  offMin : ℤ
deriving DecidableEq

/-- Component ranges of a well-formed `chrono` date-time (years limited
to the four-digit range of the `%Y` rendering, no leap-second nanos). -/
def DT.Valid (t : DT) : Prop :=
  t.year ≤ 9999 ∧ 1 ≤ t.month ∧ t.month ≤ 12 ∧ 1 ≤ t.day ∧ t.day ≤ 31 ∧
  t.hour ≤ 23 ∧ t.minute ≤ 59 ∧ t.second ≤ 59 ∧ t.nano < 1000000000 ∧
  t.offMin.natAbs ≤ 1439

instance (t : DT) : Decidable t.Valid :=
  inferInstanceAs (Decidable (_ ∧ _))

/-- Days since 1970-01-01 of a civil date (era-based arithmetic). -/
def daysFromCivil (y m d : ℤ) : ℤ :=
  let yy := if m ≤ 2 then y - 1 else y
  let era := yy / 400
  let yoe := yy - era * 400
  let doy := (153 * (m + (if 2 < m then -3 else 9)) + 2) / 5 + d - 1
  let doe := yoe * 365 + yoe / 4 - yoe / 100 + doy
  era * 146097 + doe - 719468

/-- Nanoseconds since the Unix epoch of the instant a `DT` denotes (civil
fields are local time at offset `offMin` minutes). -/
def DT.epochNanos (t : DT) : ℤ :=
  (daysFromCivil t.year t.month t.day * 86400 +
    t.hour * 3600 + t.minute * 60 + t.second - t.offMin * 60) * 1000000000
    + t.nano

/-- `(a - b).num_seconds()` for chrono date-times: the difference of
instants in nanoseconds, divided by 10^9 truncating toward zero. -/
def dtDiffSeconds (a b : DT) : ℤ :=
  Int.tdiv (a.epochNanos - b.epochNanos) 1000000000

/-- `ActiveSession` from `src/storage.rs`. -/
structure ActiveSession where
  start : DT
  last_seen : DT
deriving DecidableEq

/-- `ActiveSession::new`: `last_seen` starts equal to `start`. -/
def ActiveSession.new (start : DT) : ActiveSession := ⟨start, start⟩

/-- `active_session_minutes` from `src/storage.rs`:
`(last_seen - start).num_seconds().max(0) as f64 / 60.0`, exact. -/
def active_session_minutes (a : ActiveSession) : ℚ :=
  ((max (dtDiffSeconds a.last_seen a.start) 0 : ℤ) : ℚ) / 60

/-- `Session` from `src/storage.rs`.  `Uuid::new_v4` randomness is
modelled by an abstract numeric identifier supplied by the monitor's
fresh-id counter; the Rust field `end` is `endTime` (`end` is a Lean
keyword). -/
structure Session where
  id : ℕ
  start : DT
  endTime : DT
  duration_minutes : ℚ
  note : Str
deriving DecidableEq

/-- `Session::new`: duration is
`(end - start).num_seconds().max(0) as f64 / 60.0`. -/
def Session.new (id : ℕ) (start endTime : DT) (note : Str) : Session :=
  ⟨id, start, endTime,
    ((max (dtDiffSeconds endTime start) 0 : ℤ) : ℚ) / 60, note⟩

/-- The comparator of the duration sort in `compute_analytics`:
`|a, b| a.partial_cmp(b).unwrap()`.  On the rational durations of this
model it is total, but the panicking shape is kept. -/
def ratCmpAsc (a b : ℚ) : Option Ordering :=
  some (if a < b then .lt else if b < a then .gt else .eq)

/-- The fields of `Analytics` covered by the claims: those that
`compute_analytics` derives without consulting `Local::now`. -/
structure AnalyticsCore where
  total_sessions : ℕ
  total_minutes : ℚ
  average_session_minutes : ℚ
  median_session_minutes : ℚ
deriving DecidableEq

/-- The count/total/mean/median fragment of `compute_analytics` from
`src/storage.rs`.  The calendar-windowed fields (rolling sums, daily and
weekly buckets, top days) depend on the ambient current day and are not
the subject of any claim here.  The duration sort keeps the panicking
comparator; it cannot fail on rational durations, and `[]` stands for the
unreachable panic. -/
def compute_analytics (sessions : List Session) : AnalyticsCore :=
  let total_sessions := sessions.length
  let total_minutes := (sessions.map (fun s => s.duration_minutes)).sum
  let average_session_minutes :=
    if total_sessions = 0 then 0 else total_minutes / total_sessions
  let durations :=
    (sortOptCmp ratCmpAsc (sessions.map (fun s => s.duration_minutes))).getD
      []
  let median_session_minutes :=
    if durations.isEmpty then 0
    else
      let mid := durations.length / 2
      if durations.length % 2 = 0 then
        (durations.getD (mid - 1) 0 + durations.getD mid 0) / 2
      else durations.getD mid 0
  ⟨total_sessions, total_minutes, average_session_minutes,
    median_session_minutes⟩

theorem insertOptCmp_ratCmpAsc (x : ℚ) (l : List ℚ) :
    insertOptCmp ratCmpAsc x l =
      some (List.orderedInsert (fun a b : ℚ => a ≤ b) x l) := by
  induction l with
  | nil => rfl
  | cons y ys ih =>
    rcases lt_trichotomy x y with h | h | h
    · simp only [insertOptCmp, ratCmpAsc, if_pos h, List.orderedInsert,
        if_pos h.le]
    · subst h
      simp only [insertOptCmp, ratCmpAsc, if_neg (lt_irrefl x),
        List.orderedInsert, if_pos le_rfl]
    · simp only [insertOptCmp, ratCmpAsc, if_neg (not_lt_of_gt h), if_pos h,
        ih, List.orderedInsert, if_neg (not_le_of_gt h), Option.map_some']

theorem sortOptCmp_ratCmpAsc (l : List ℚ) :
    sortOptCmp ratCmpAsc l =
      some (List.insertionSort (fun a b : ℚ => a ≤ b) l) := by
  induction l with
  | nil => rfl
  | cons x xs ih =>
    simp only [sortOptCmp, ih, Option.some_bind, List.insertionSort]
    exact insertOptCmp_ratCmpAsc x _

/-- A fixed sample time-stamp for concrete sessions. -/
def dt0 : DT := ⟨2024, 1, 1, 0, 0, 0, 0, 0⟩

/-- C8: on a nonempty history the median equals the middle sorted
duration for an odd session count and the mean of the two middle sorted
durations for an even count; in particular durations 10, 20, 30 give
median 20 and durations 10, 20 give median 15. -/
theorem c8_median_middle (sessions : List Session) (hne : sessions ≠ []) :
    ((compute_analytics sessions).median_session_minutes =
      (if sessions.length % 2 = 0 then
        ((List.insertionSort (fun a b : ℚ => a ≤ b)
            (sessions.map (fun s => s.duration_minutes))).getD
          (sessions.length / 2 - 1) 0 +
         (List.insertionSort (fun a b : ℚ => a ≤ b)
            (sessions.map (fun s => s.duration_minutes))).getD
          (sessions.length / 2) 0) / 2
      else
        (List.insertionSort (fun a b : ℚ => a ≤ b)
            (sessions.map (fun s => s.duration_minutes))).getD
          (sessions.length / 2) 0)) ∧
    (compute_analytics [⟨0, dt0, dt0, 10, []⟩, ⟨1, dt0, dt0, 20, []⟩,
        ⟨2, dt0, dt0, 30, []⟩]).median_session_minutes = 20 ∧
    (compute_analytics [⟨0, dt0, dt0, 10, []⟩,
        ⟨1, dt0, dt0, 20, []⟩]).median_session_minutes = 15 := by
  refine ⟨?_,
    by norm_num [compute_analytics, sortOptCmp_ratCmpAsc,
      List.insertionSort, List.orderedInsert, List.getD],
    by norm_num [compute_analytics, sortOptCmp_ratCmpAsc,
      List.insertionSort, List.orderedInsert, List.getD]⟩
  set ds := sessions.map (fun s => s.duration_minutes) with hds
  set sorted := List.insertionSort (fun a b : ℚ => a ≤ b) ds with hsortd
  have hlen : sorted.length = sessions.length := by
    rw [hsortd, (List.perm_insertionSort _ _).length_eq, hds,
      List.length_map]
  have hne2 : sorted ≠ [] := by
    intro h
    rw [h] at hlen
    exact hne (List.length_eq_zero.mp hlen.symm)
  have hne' : sorted.isEmpty = false := by
    rcases hs : sorted with _ | ⟨a, as⟩
    · exact absurd hs hne2
    · rfl
  simp only [compute_analytics, hds.symm, sortOptCmp_ratCmpAsc,
    Option.getD_some, hsortd.symm, hne', Bool.false_eq_true, if_false,
    hlen]

/-- C8 witness: the theorem applied at a concrete three-session history. -/
theorem c8_median_witness :
    ([⟨0, dt0, dt0, 10, []⟩, ⟨1, dt0, dt0, 20, []⟩,
      ⟨2, dt0, dt0, 30, []⟩] : List Session) ≠ [] ∧
    (((compute_analytics [⟨0, dt0, dt0, 10, []⟩, ⟨1, dt0, dt0, 20, []⟩,
        ⟨2, dt0, dt0, 30, []⟩]).median_session_minutes =
      (if ([⟨0, dt0, dt0, 10, []⟩, ⟨1, dt0, dt0, 20, []⟩,
          ⟨2, dt0, dt0, 30, []⟩] : List Session).length % 2 = 0 then
        ((List.insertionSort (fun a b : ℚ => a ≤ b)
            (([⟨0, dt0, dt0, 10, []⟩, ⟨1, dt0, dt0, 20, []⟩,
              ⟨2, dt0, dt0, 30, []⟩] : List Session).map
              (fun s => s.duration_minutes))).getD
          (([⟨0, dt0, dt0, 10, []⟩, ⟨1, dt0, dt0, 20, []⟩,
            ⟨2, dt0, dt0, 30, []⟩] : List Session).length / 2 - 1) 0 +
         (List.insertionSort (fun a b : ℚ => a ≤ b)
            (([⟨0, dt0, dt0, 10, []⟩, ⟨1, dt0, dt0, 20, []⟩,
              ⟨2, dt0, dt0, 30, []⟩] : List Session).map
              (fun s => s.duration_minutes))).getD
          (([⟨0, dt0, dt0, 10, []⟩, ⟨1, dt0, dt0, 20, []⟩,
            ⟨2, dt0, dt0, 30, []⟩] : List Session).length / 2) 0) / 2
      else
        (List.insertionSort (fun a b : ℚ => a ≤ b)
            (([⟨0, dt0, dt0, 10, []⟩, ⟨1, dt0, dt0, 20, []⟩,
              ⟨2, dt0, dt0, 30, []⟩] : List Session).map
              (fun s => s.duration_minutes))).getD
          (([⟨0, dt0, dt0, 10, []⟩, ⟨1, dt0, dt0, 20, []⟩,
            ⟨2, dt0, dt0, 30, []⟩] : List Session).length / 2) 0)) ∧
    (compute_analytics [⟨0, dt0, dt0, 10, []⟩, ⟨1, dt0, dt0, 20, []⟩,
        ⟨2, dt0, dt0, 30, []⟩]).median_session_minutes = 20 ∧
    (compute_analytics [⟨0, dt0, dt0, 10, []⟩,
        ⟨1, dt0, dt0, 20, []⟩]).median_session_minutes = 15) :=
  ⟨by decide,
    c8_median_middle
      [⟨0, dt0, dt0, 10, []⟩, ⟨1, dt0, dt0, 20, []⟩, ⟨2, dt0, dt0, 30, []⟩]
      (by decide)⟩

/-! ### RFC 3339 rendering and parsing of date-times

`chrono`'s serde support writes `DateTime<Local>` as an RFC 3339 string
(`%Y-%m-%dT%H:%M:%S%.f%:z`: fixed-width numeric fields, a fractional
part with 0, 3, 6 or 9 digits, and a signed `HH:MM` offset) and reads it
back, re-localizing to the same instant.  Under an unchanged local
timezone database this round-trips the components exactly. -/

/-- The ASCII digit character of `n % 10`-style values below 10. -/
def digitChar (n : ℕ) : Char := Char.ofNat (48 + n)

/-- Decimal digit test. -/
def isDigitCh (c : Char) : Bool := decide ('0' ≤ c ∧ c ≤ '9')

def pad2 (n : ℕ) : Str := [digitChar (n / 10 % 10), digitChar (n % 10)]

def pad3 (n : ℕ) : Str :=
  [digitChar (n / 100 % 10), digitChar (n / 10 % 10), digitChar (n % 10)]

def pad4 (n : ℕ) : Str :=
  [digitChar (n / 1000 % 10), digitChar (n / 100 % 10),
   digitChar (n / 10 % 10), digitChar (n % 10)]

def pad6 (n : ℕ) : Str := pad3 (n / 1000) ++ pad3 (n % 1000)

def pad9 (n : ℕ) : Str :=
  pad3 (n / 1000000) ++ pad3 (n / 1000 % 1000) ++ pad3 (n % 1000)

/-- chrono `%.f`: nothing for zero nanoseconds, otherwise a dot and 3, 6
or 9 digits depending on trailing zeros. -/
def fracRender (n : ℕ) : Str :=
  if n = 0 then []
  else if n % 1000000 = 0 then '.' :: pad3 (n / 1000000)
  else if n % 1000 = 0 then '.' :: pad6 (n / 1000)
  else '.' :: pad9 n

/-- chrono `%:z`: signed `HH:MM` offset (`+00:00` for zero). -/
def offsetRender (offMin : ℤ) : Str :=
  (if offMin < 0 then '-' else '+') ::
    (pad2 (offMin.natAbs / 60) ++ ':' :: pad2 (offMin.natAbs % 60))

/-- `DateTime::to_rfc3339` / the serde serialization of a date-time. -/
def DT.rfc3339Render (t : DT) : Str :=
  pad4 t.year ++ '-' :: pad2 t.month ++ '-' :: pad2 t.day ++
  'T' :: pad2 t.hour ++ ':' :: pad2 t.minute ++ ':' :: pad2 t.second ++
  fracRender t.nano ++ offsetRender t.offMin

def parseDigit (c : Char) : Option ℕ :=
  if '0' ≤ c ∧ c ≤ '9' then some (c.toNat - 48) else none

/-- Read exactly `k` digits, most significant first. -/
def parseFixed : ℕ → ℕ → Str → Option (ℕ × Str)
  | 0, acc, s => some (acc, s)
  | _ + 1, _, [] => none
  | k + 1, acc, c :: s =>
    match parseDigit c with
    | none => none
    | some d => parseFixed k (acc * 10 + d) s

def expectCh (c : Char) : Str → Option Str
  | [] => none
  | x :: s => if x = c then some s else none

/-- Value of a digit string, most significant first. -/
def digitsVal (s : Str) : ℕ :=
  s.foldl (fun acc c => acc * 10 + (c.toNat - 48)) 0

/-- Parse an optional fractional-second part: absent, or a dot followed
by 1 to 9 digits, scaled to nanoseconds. -/
def parseFrac (s : Str) : Option (ℕ × Str) :=
  match s with
  | '.' :: rest =>
    let ds := rest.takeWhile isDigitCh
    let rest' := rest.dropWhile isDigitCh
    if ds.length = 0 ∨ 9 < ds.length then none
    else some (digitsVal ds * 10 ^ (9 - ds.length), rest')
  | _ => some (0, s)

/-- Parse the signed `HH:MM` offset terminating the string. -/
def parseOffset (s : Str) : Option ℤ :=
  match s with
  | '+' :: rest =>
    (parseFixed 2 0 rest).bind (fun p1 =>
      (expectCh ':' p1.2).bind (fun r2 =>
        (parseFixed 2 0 r2).bind (fun p2 =>
          if p2.2 = [] then some ((p1.1 : ℤ) * 60 + p2.1) else none)))
  | '-' :: rest =>
    (parseFixed 2 0 rest).bind (fun p1 =>
      (expectCh ':' p1.2).bind (fun r2 =>
        (parseFixed 2 0 r2).bind (fun p2 =>
          if p2.2 = [] then some (-((p1.1 : ℤ) * 60 + p2.1)) else none)))
  | _ => none

/-- Parse of the RFC 3339 date-time shape produced by the rendering (the
subset of chrono's parser exercised by the round trip). -/
def parseRfc3339 (s : Str) : Option DT :=
  (parseFixed 4 0 s).bind fun py =>
  (expectCh '-' py.2).bind fun r1 =>
  (parseFixed 2 0 r1).bind fun pmo =>
  (expectCh '-' pmo.2).bind fun r2 =>
  (parseFixed 2 0 r2).bind fun pd =>
  (expectCh 'T' pd.2).bind fun r3 =>
  (parseFixed 2 0 r3).bind fun ph =>
  (expectCh ':' ph.2).bind fun r4 =>
  (parseFixed 2 0 r4).bind fun pmi =>
  (expectCh ':' pmi.2).bind fun r5 =>
  (parseFixed 2 0 r5).bind fun pse =>
  (parseFrac pse.2).bind fun pna =>
  (parseOffset pna.2).map fun off =>
    ⟨py.1, pmo.1, pd.1, ph.1, pmi.1, pse.1, pna.1, off⟩

theorem parseDigit_digitChar {d : ℕ} (hd : d < 10) :
    parseDigit (digitChar d) = some d := by
  interval_cases d <;> decide

theorem isDigitCh_digitChar {d : ℕ} (hd : d < 10) :
    isDigitCh (digitChar d) = true := by
  interval_cases d <;> decide

theorem parseFixed_pad2 (acc n : ℕ) (hn : n < 100) (rest : Str) :
    parseFixed 2 acc (pad2 n ++ rest) = some (acc * 100 + n, rest) := by
  have h1 := parseDigit_digitChar (d := n / 10 % 10)
    (Nat.mod_lt _ (by norm_num))
  have h2 := parseDigit_digitChar (d := n % 10) (Nat.mod_lt _ (by norm_num))
  simp only [pad2, List.cons_append, List.nil_append, parseFixed, h1, h2]
  have he : (acc * 10 + n / 10 % 10) * 10 + n % 10 = acc * 100 + n := by
    omega
  rw [he]
  rfl

theorem parseFixed_pad4 (n : ℕ) (hn : n < 10000) (rest : Str) :
    parseFixed 4 0 (pad4 n ++ rest) = some (n, rest) := by
  have h1 := parseDigit_digitChar (d := n / 1000 % 10)
    (Nat.mod_lt _ (by norm_num))
  have h2 := parseDigit_digitChar (d := n / 100 % 10)
    (Nat.mod_lt _ (by norm_num))
  have h3 := parseDigit_digitChar (d := n / 10 % 10)
    (Nat.mod_lt _ (by norm_num))
  have h4 := parseDigit_digitChar (d := n % 10) (Nat.mod_lt _ (by norm_num))
  simp only [pad4, List.cons_append, List.nil_append, parseFixed,
    h1, h2, h3, h4]
  have he : (((0 * 10 + n / 1000 % 10) * 10 + n / 100 % 10) * 10 +
      n / 10 % 10) * 10 + n % 10 = n := by omega
  rw [he]
  rfl

theorem digitsVal_foldl (r : Str) :
    ∀ a : ℕ, r.foldl (fun acc c => acc * 10 + (c.toNat - 48)) a =
      a * 10 ^ r.length + digitsVal r := by
  induction r with
  | nil =>
    intro a
    simp [digitsVal]
  | cons c cs ih =>
    intro a
    rw [List.foldl_cons, ih (a * 10 + (c.toNat - 48))]
    have hc : digitsVal (c :: cs) =
        (c.toNat - 48) * 10 ^ cs.length + digitsVal cs := by
      rw [digitsVal, List.foldl_cons]
      rw [show List.foldl (fun acc c => acc * 10 + (c.toNat - 48))
        (0 * 10 + (c.toNat - 48)) cs =
        (0 * 10 + (c.toNat - 48)) * 10 ^ cs.length + digitsVal cs from
        ih (0 * 10 + (c.toNat - 48))]
      ring
    rw [hc, List.length_cons, pow_succ]
    ring

theorem digitsVal_append (l r : Str) :
    digitsVal (l ++ r) =
      digitsVal l * 10 ^ r.length + digitsVal r := by
  rw [digitsVal, List.foldl_append]
  exact digitsVal_foldl r (digitsVal l)

theorem digitsVal_pad3 (n : ℕ) (hn : n < 1000) : digitsVal (pad3 n) = n := by
  have : digitsVal (pad3 n) =
      ((0 * 10 + n / 100 % 10) * 10 + n / 10 % 10) * 10 + n % 10 := by
    simp only [pad3, digitsVal, List.foldl_cons, List.foldl_nil]
    have e1 : (digitChar (n / 100 % 10)).toNat - 48 = n / 100 % 10 := by
      have := parseDigit_digitChar (d := n / 100 % 10)
        (Nat.mod_lt _ (by norm_num))
      simp only [parseDigit] at this
      split at this
      · exact (Option.some.injEq _ _).mp this
      · cases this
    have e2 : (digitChar (n / 10 % 10)).toNat - 48 = n / 10 % 10 := by
      have := parseDigit_digitChar (d := n / 10 % 10)
        (Nat.mod_lt _ (by norm_num))
      simp only [parseDigit] at this
      split at this
      · exact (Option.some.injEq _ _).mp this
      · cases this
    have e3 : (digitChar (n % 10)).toNat - 48 = n % 10 := by
      have := parseDigit_digitChar (d := n % 10)
        (Nat.mod_lt _ (by norm_num))
      simp only [parseDigit] at this
      split at this
      · exact (Option.some.injEq _ _).mp this
      · cases this
    rw [e1, e2, e3]
  rw [this]
  omega


theorem pad3_length (n : ℕ) : (pad3 n).length = 3 := rfl

theorem pad6_length (n : ℕ) : (pad6 n).length = 6 := by
  rw [pad6, List.length_append, pad3_length, pad3_length]

theorem pad9_length (n : ℕ) : (pad9 n).length = 9 := by
  rw [pad9, List.length_append, List.length_append, pad3_length,
    pad3_length, pad3_length]

theorem digitsVal_pad6 (n : ℕ) (hn : n < 1000000) :
    digitsVal (pad6 n) = n := by
  rw [pad6, digitsVal_append, digitsVal_pad3 _ (by omega),
    digitsVal_pad3 _ (by omega), pad3_length]
  omega

theorem digitsVal_pad9 (n : ℕ) (hn : n < 1000000000) :
    digitsVal (pad9 n) = n := by
  rw [pad9, digitsVal_append, digitsVal_append,
    digitsVal_pad3 _ (by omega), digitsVal_pad3 _ (by omega),
    digitsVal_pad3 _ (by omega)]
  simp only [pad3_length, List.length_append]
  omega

theorem pad2_digits (n : ℕ) : ∀ c ∈ pad2 n, isDigitCh c = true := by
  intro c hc
  simp only [pad2, List.mem_cons, List.not_mem_nil, or_false] at hc
  rcases hc with rfl | rfl <;>
    exact isDigitCh_digitChar (Nat.mod_lt _ (by norm_num))

theorem pad3_digits (n : ℕ) : ∀ c ∈ pad3 n, isDigitCh c = true := by
  intro c hc
  simp only [pad3, List.mem_cons, List.not_mem_nil, or_false] at hc
  rcases hc with rfl | rfl | rfl <;>
    exact isDigitCh_digitChar (Nat.mod_lt _ (by norm_num))

theorem pad4_digits (n : ℕ) : ∀ c ∈ pad4 n, isDigitCh c = true := by
  intro c hc
  simp only [pad4, List.mem_cons, List.not_mem_nil, or_false] at hc
  rcases hc with rfl | rfl | rfl | rfl <;>
    exact isDigitCh_digitChar (Nat.mod_lt _ (by norm_num))

theorem pad6_digits (n : ℕ) : ∀ c ∈ pad6 n, isDigitCh c = true := by
  intro c hc
  rcases List.mem_append.mp hc with h | h
  · exact pad3_digits _ c h
  · exact pad3_digits _ c h

theorem pad9_digits (n : ℕ) : ∀ c ∈ pad9 n, isDigitCh c = true := by
  intro c hc
  rcases List.mem_append.mp hc with h | h
  · rcases List.mem_append.mp h with h' | h'
    · exact pad3_digits _ c h'
    · exact pad3_digits _ c h'
  · exact pad3_digits _ c h

theorem takeWhile_app {p : Char → Bool} :
    ∀ (l r : Str), (∀ c ∈ l, p c = true) →
      (∀ c, r.head? = some c → p c = false) →
      (l ++ r).takeWhile p = l ∧ (l ++ r).dropWhile p = r := by
  intro l
  induction l with
  | nil =>
    intro r _ hr
    cases r with
    | nil => exact ⟨rfl, rfl⟩
    | cons c r' =>
      have hc := hr c rfl
      exact ⟨by simp [List.takeWhile_cons, hc],
        by simp [List.dropWhile_cons, hc]⟩
  | cons a l' ih =>
    intro r hl hr
    have ha : p a = true := hl a (List.mem_cons_self _ _)
    have hrec := ih r (fun c hc => hl c (List.mem_cons_of_mem _ hc)) hr
    exact ⟨by simp [List.takeWhile_cons, ha, hrec.1],
      by simp [List.dropWhile_cons, ha, hrec.2]⟩

theorem offsetRender_head (o : ℤ) :
    ∀ c, (offsetRender o).head? = some c →
      isDigitCh c = false ∧ c ≠ '.' := by
  intro c hc
  rw [offsetRender] at hc
  by_cases h : o < 0
  · rw [if_pos h] at hc
    simp only [List.head?_cons, Option.some.injEq] at hc
    subst hc
    exact ⟨by decide, by decide⟩
  · rw [if_neg h] at hc
    simp only [List.head?_cons, Option.some.injEq] at hc
    subst hc
    exact ⟨by decide, by decide⟩

theorem parseFrac_fracRender (n : ℕ) (hn : n < 1000000000) (rest : Str)
    (hhead : ∀ c, rest.head? = some c → isDigitCh c = false ∧ c ≠ '.') :
    parseFrac (fracRender n ++ rest) = some (n, rest) := by
  by_cases h0 : n = 0
  · subst h0
    rw [fracRender, if_pos rfl, List.nil_append]
    cases rest with
    | nil => rfl
    | cons c r' =>
      have hc : c ≠ '.' := (hhead c rfl).2
      unfold parseFrac
      split
      · rename_i heq
        rw [List.cons.injEq] at heq
        exact absurd heq.1 hc
      · rfl
  · by_cases h6 : n % 1000000 = 0
    · rw [fracRender, if_neg h0, if_pos h6, List.cons_append]
      have hdig := pad3_digits (n / 1000000)
      obtain ⟨htk, hdr⟩ := takeWhile_app (pad3 (n / 1000000)) rest hdig
        (fun c hc => (hhead c hc).1)
      simp only [parseFrac, htk, hdr, pad3_length]
      norm_num
      rw [digitsVal_pad3 _ (by omega)]
      omega
    · by_cases h3 : n % 1000 = 0
      · rw [fracRender, if_neg h0, if_neg h6, if_pos h3, List.cons_append]
        have hdig := pad6_digits (n / 1000)
        obtain ⟨htk, hdr⟩ := takeWhile_app (pad6 (n / 1000)) rest hdig
          (fun c hc => (hhead c hc).1)
        simp only [parseFrac, htk, hdr, pad6_length]
        norm_num
        rw [digitsVal_pad6 _ (by omega)]
        omega
      · rw [fracRender, if_neg h0, if_neg h6, if_neg h3, List.cons_append]
        have hdig := pad9_digits n
        obtain ⟨htk, hdr⟩ := takeWhile_app (pad9 n) rest hdig
          (fun c hc => (hhead c hc).1)
        simp only [parseFrac, htk, hdr, pad9_length]
        norm_num
        rw [digitsVal_pad9 _ (by omega)]

theorem parseFixed_pad2z (n : ℕ) (hn : n < 100) (rest : Str) :
    parseFixed 2 0 (pad2 n ++ rest) = some (n, rest) := by
  rw [parseFixed_pad2 0 n hn rest]
  norm_num

theorem parseFixed_pad2nil (n : ℕ) (hn : n < 100) :
    parseFixed 2 0 (pad2 n) = some (n, []) := by
  have h := parseFixed_pad2z n hn []
  rwa [List.append_nil] at h

theorem parseOffset_offsetRender (o : ℤ) (ho : o.natAbs ≤ 1439) :
    parseOffset (offsetRender o) = some o := by
  have hh : o.natAbs / 60 < 100 := by omega
  have hm : o.natAbs % 60 < 100 := by omega
  have hN : o.natAbs / 60 * 60 + o.natAbs % 60 = o.natAbs := by omega
  have hZ : ((o.natAbs / 60 : ℕ) : ℤ) * 60 + ((o.natAbs % 60 : ℕ) : ℤ)
      = (o.natAbs : ℤ) := by exact_mod_cast hN
  have hcol : expectCh ':' (':' :: pad2 (o.natAbs % 60)) =
      some (pad2 (o.natAbs % 60)) := rfl
  by_cases hneg : o < 0
  · rw [offsetRender, if_pos hneg]
    have e1 : parseOffset ('-' ::
        (pad2 (o.natAbs / 60) ++ ':' :: pad2 (o.natAbs % 60))) =
        (parseFixed 2 0
          (pad2 (o.natAbs / 60) ++ ':' :: pad2 (o.natAbs % 60))).bind
          (fun p1 => (expectCh ':' p1.2).bind (fun r2 =>
            (parseFixed 2 0 r2).bind (fun p2 =>
              if p2.2 = [] then some (-((p1.1 : ℤ) * 60 + p2.1))
              else none))) := rfl
    rw [e1, parseFixed_pad2z _ hh, Option.some_bind, hcol,
      Option.some_bind, parseFixed_pad2nil _ hm, Option.some_bind,
      if_pos rfl]
    congr 1
    rw [hZ]
    omega
  · rw [offsetRender, if_neg hneg]
    have e1 : parseOffset ('+' ::
        (pad2 (o.natAbs / 60) ++ ':' :: pad2 (o.natAbs % 60))) =
        (parseFixed 2 0
          (pad2 (o.natAbs / 60) ++ ':' :: pad2 (o.natAbs % 60))).bind
          (fun p1 => (expectCh ':' p1.2).bind (fun r2 =>
            (parseFixed 2 0 r2).bind (fun p2 =>
              if p2.2 = [] then some ((p1.1 : ℤ) * 60 + p2.1)
              else none))) := rfl
    rw [e1, parseFixed_pad2z _ hh, Option.some_bind, hcol,
      Option.some_bind, parseFixed_pad2nil _ hm, Option.some_bind,
      if_pos rfl]
    congr 1
    rw [hZ]
    omega

theorem expectCh_cons (c : Char) (s : Str) : expectCh c (c :: s) = some s := by
  simp [expectCh]

theorem parseRfc3339_render (t : DT) (hv : t.Valid) :
    parseRfc3339 t.rfc3339Render = some t := by
  obtain ⟨hy, hmo1, hmo2, hd1, hd2, hh, hmi, hse, hna, hoff⟩ := hv
  rw [DT.rfc3339Render]
  simp only [List.cons_append, List.append_assoc, parseRfc3339,
    parseFixed_pad4 t.year (by omega), Option.some_bind, expectCh_cons,
    parseFixed_pad2z t.month (by omega),
    parseFixed_pad2z t.day (by omega),
    parseFixed_pad2z t.hour (by omega),
    parseFixed_pad2z t.minute (by omega),
    parseFixed_pad2z t.second (by omega),
    parseFrac_fracRender t.nano (by omega) (offsetRender t.offMin)
      (offsetRender_head t.offMin),
    parseOffset_offsetRender t.offMin (by omega), Option.map_some']

theorem fracRender_chars (n : ℕ) :
    ∀ c ∈ fracRender n, isDigitCh c = true ∨ c = '.' := by
  intro c hc
  by_cases h0 : n = 0
  · rw [fracRender, if_pos h0] at hc
    cases hc
  · by_cases h6 : n % 1000000 = 0
    · rw [fracRender, if_neg h0, if_pos h6] at hc
      rcases List.mem_cons.mp hc with rfl | h
      · exact Or.inr rfl
      · exact Or.inl (pad3_digits _ c h)
    · by_cases h3 : n % 1000 = 0
      · rw [fracRender, if_neg h0, if_neg h6, if_pos h3] at hc
        rcases List.mem_cons.mp hc with rfl | h
        · exact Or.inr rfl
        · exact Or.inl (pad6_digits _ c h)
      · rw [fracRender, if_neg h0, if_neg h6, if_neg h3] at hc
        rcases List.mem_cons.mp hc with rfl | h
        · exact Or.inr rfl
        · exact Or.inl (pad9_digits _ c h)

theorem offsetRender_chars (o : ℤ) :
    ∀ c ∈ offsetRender o,
      isDigitCh c = true ∨ c ∈ (['-', ':', '+'] : Str) := by
  intro c hc
  rw [offsetRender] at hc
  rcases List.mem_cons.mp hc with h | h
  · subst h
    by_cases hs : o < 0
    · rw [if_pos hs]
      right
      decide
    · rw [if_neg hs]
      right
      decide
  · rcases List.mem_append.mp h with h' | h'
    · exact Or.inl (pad2_digits _ c h')
    · rcases List.mem_cons.mp h' with rfl | h''
      · right
        decide
      · exact Or.inl (pad2_digits _ c h'')

theorem rfc3339Render_chars (t : DT) :
    ∀ c ∈ t.rfc3339Render,
      isDigitCh c = true ∨ c ∈ (['-', ':', 'T', '.', '+'] : Str) := by
  have hseg : ∀ (ch : Char) (n : ℕ) (c : Char), c ∈ ch :: pad2 n →
      isDigitCh c = true ∨ c = ch := by
    intro ch n c h
    rcases List.mem_cons.mp h with rfl | h'
    · exact Or.inr rfl
    · exact Or.inl (pad2_digits _ c h')
  intro c hc
  rw [DT.rfc3339Render] at hc
  rcases List.mem_append.mp hc with h | h
  · rcases List.mem_append.mp h with h | h
    · rcases List.mem_append.mp h with h | h
      · rcases List.mem_append.mp h with h | h
        · rcases List.mem_append.mp h with h | h
          · rcases List.mem_append.mp h with h | h
            · rcases List.mem_append.mp h with h | h
              · exact Or.inl (pad4_digits _ c h)
              · rcases hseg '-' _ c h with hd | rfl
                · exact Or.inl hd
                · right; decide
            · rcases hseg '-' _ c h with hd | rfl
              · exact Or.inl hd
              · right; decide
          · rcases hseg 'T' _ c h with hd | rfl
            · exact Or.inl hd
            · right; decide
        · rcases hseg ':' _ c h with hd | rfl
          · exact Or.inl hd
          · right; decide
      · rcases hseg ':' _ c h with hd | rfl
        · exact Or.inl hd
        · right; decide
    · rcases fracRender_chars _ c h with hd | rfl
      · exact Or.inl hd
      · right; decide
  · rcases offsetRender_chars _ c h with hd | hm
    · exact Or.inl hd
    · right
      rcases List.mem_cons.mp hm with rfl | hm'
      · decide
      · rcases List.mem_cons.mp hm' with rfl | hm''
        · decide
        · rcases List.mem_cons.mp hm'' with rfl | h0
          · decide
          · cases h0

theorem rfc3339Render_no_quote (t : DT) : '\x22' ∉ t.rfc3339Render := by
  intro h
  rcases rfc3339Render_chars t _ h with hd | hm
  · cases hd
  · exact absurd hm (by decide)

/-- Strip an exact expected prefix. -/
def expectChunk : Str → Str → Option Str
  | [], s => some s
  | _ :: _, [] => none
  | c :: pre, x :: s => if x = c then expectChunk pre s else none

theorem expectChunk_append (pre : Str) :
    ∀ r, expectChunk pre (pre ++ r) = some r := by
  induction pre with
  | nil => intro r; rfl
  | cons c pre ih =>
    intro r
    simp only [List.cons_append, expectChunk, if_pos rfl]
    exact ih r

/-- Read a JSON string body up to the closing quote (the rendered
date-times contain no quote and no escape). -/
def readStringLit : Str → Option (Str × Str)
  | [] => none
  | c :: s =>
    if c = '"' then some ([], s)
    else (readStringLit s).map (fun p => (c :: p.1, p.2))

theorem readStringLit_append (l : Str) (hl : '"' ∉ l) (r : Str) :
    readStringLit (l ++ '"' :: r) = some (l, r) := by
  induction l with
  | nil => simp [readStringLit]
  | cons c l' ih =>
    have hc : c ≠ '"' := fun h => hl (h ▸ List.mem_cons_self _ _)
    simp only [List.cons_append, readStringLit, if_neg hc, List.append_eq,
      ih (fun h => hl (List.mem_cons_of_mem _ h)), Option.map_some']

/-- The exact text `serde_json::to_string_pretty` writes for an
`ActiveSession`: a pretty two-field object holding the RFC 3339
serializations of `start` and `last_seen`. -/
def activeSessionJson (a : ActiveSession) : Str :=
  ['\x7b', '\n', ' ', ' ', '\x22', 's', 't', 'a', 'r', 't', '\x22', ':',
    ' ', '\x22'] ++ a.start.rfc3339Render ++
  ['\x22', ',', '\n', ' ', ' ', '\x22', 'l', 'a', 's', 't', '_', 's',
    'e', 'e', 'n', '\x22', ':', ' ', '\x22'] ++ a.last_seen.rfc3339Render ++
  ['\x22', '\n', '\x7d']

/-- Model of `serde_json::from_str::<ActiveSession>` on the canonical
pretty encoding that `save_active` writes: strip the fixed object
skeleton, read the two timestamp strings, parse them as RFC 3339. -/
def parseActiveSessionJson (s : Str) : Option ActiveSession :=
  (expectChunk ['\x7b', '\n', ' ', ' ', '\x22', 's', 't', 'a', 'r', 't',
      '\x22', ':', ' ', '\x22'] s).bind fun r1 =>
  (readStringLit r1).bind fun p1 =>
  (expectChunk [',', '\n', ' ', ' ', '\x22', 'l', 'a', 's', 't', '_',
      's', 'e', 'e', 'n', '\x22', ':', ' ', '\x22'] p1.2).bind fun r2 =>
  (readStringLit r2).bind fun p2 =>
  (expectChunk ['\n', '\x7d'] p2.2).bind fun r3 =>
  if r3 = [] then
    (parseRfc3339 p1.1).bind fun st =>
    (parseRfc3339 p2.1).map fun ls => (⟨st, ls⟩ : ActiveSession)
  else none

/-- The file-system state of a `SessionStore`, restricted to the records
the storage claims touch: the active-marker file is kept at the byte
level (its round trip is the subject of C7); the session history file is
kept at the parsed level, justified by the same serde round trip. -/
structure StoreState where
  activeFile : Option Str
  sessionsFile : List Session
deriving DecidableEq

/-- `SessionStore::save_active`: serialize and overwrite the marker. -/
def SessionStore.save_active (st : StoreState) (a : ActiveSession) :
    StoreState :=
  { st with activeFile := some (activeSessionJson a) }

/-- `SessionStore::load_active`: absent file gives `Ok(None)`, an
unparsable file a typed error, otherwise the parsed marker. -/
def SessionStore.load_active (st : StoreState) :
    Except Str (Option ActiveSession) :=
  match st.activeFile with
  | none => .ok none
  | some content =>
    match parseActiveSessionJson content with
    | some a => .ok (some a)
    | none => .error (String.toList (r"Failed to parse active session"))

/-- `SessionStore::clear_active`: delete the marker file if present. -/
def SessionStore.clear_active (st : StoreState) : StoreState :=
  { st with activeFile := none }

/-- C7: saving an active session and loading it back returns an equal
value, for every session whose two timestamps are well-formed
(component ranges of a real `chrono` date-time with a four-digit
year). -/
theorem c7_save_load_active_roundtrip (st : StoreState) (a : ActiveSession)
    (h1 : a.start.Valid) (h2 : a.last_seen.Valid) :
    SessionStore.load_active (SessionStore.save_active st a) =
      .ok (some a) := by
  have hparse : parseActiveSessionJson (activeSessionJson a) = some a := by
    rw [activeSessionJson, parseActiveSessionJson]
    rw [List.append_assoc, List.append_assoc, List.append_assoc,
      expectChunk_append]
    simp only [Option.some_bind]
    rw [show a.start.rfc3339Render ++
        (['\x22', ',', '\n', ' ', ' ', '\x22', 'l', 'a', 's', 't', '_',
          's', 'e', 'e', 'n', '\x22', ':', ' ', '\x22'] ++
          (a.last_seen.rfc3339Render ++ ['\x22', '\n', '\x7d'])) =
        a.start.rfc3339Render ++ '\x22' ::
          ([',', '\n', ' ', ' ', '\x22', 'l', 'a', 's', 't', '_',
            's', 'e', 'e', 'n', '\x22', ':', ' ', '\x22'] ++
            (a.last_seen.rfc3339Render ++ ['\x22', '\n', '\x7d'])) from rfl,
      readStringLit_append _ (rfc3339Render_no_quote a.start)]
    simp only [Option.some_bind]
    rw [expectChunk_append]
    simp only [Option.some_bind]
    rw [show a.last_seen.rfc3339Render ++ ['\x22', '\n', '\x7d'] =
        a.last_seen.rfc3339Render ++ '\x22' :: ['\n', '\x7d'] from rfl,
      readStringLit_append _ (rfc3339Render_no_quote a.last_seen)]
    simp only [Option.some_bind]
    rw [show expectChunk ['\n', '\x7d'] ['\n', '\x7d'] = some [] from rfl]
    simp only [Option.some_bind, if_pos rfl]
    rw [parseRfc3339_render a.start h1]
    simp only [Option.some_bind]
    rw [parseRfc3339_render a.last_seen h2]
    rfl
  simp only [SessionStore.save_active, SessionStore.load_active, hparse]

/-- C7 witness: the round trip at a concrete active session. -/
theorem c7_save_load_active_witness :
    (dt0.Valid ∧ (⟨2024, 3, 5, 14, 30, 59, 123000000, -90⟩ : DT).Valid) ∧
    SessionStore.load_active (SessionStore.save_active ⟨none, []⟩
      ⟨dt0, ⟨2024, 3, 5, 14, 30, 59, 123000000, -90⟩⟩) =
      .ok (some ⟨dt0, ⟨2024, 3, 5, 14, 30, 59, 123000000, -90⟩⟩) :=
  ⟨⟨by decide, by decide⟩,
    c7_save_load_active_roundtrip ⟨none, []⟩
      ⟨dt0, ⟨2024, 3, 5, 14, 30, 59, 123000000, -90⟩⟩
      (by decide) (by decide)⟩

/-! ### CSV export -/

/-- Split a file name around its last dot. -/
def splitLastDot : Str → Option (Str × Str)
  | [] => none
  | c :: s =>
    match splitLastDot s with
    | some p => some (c :: p.1, p.2)
    | none => if c = '.' then some ([], s) else none

/-- Rust `Path::extension` on a plain file name: `None` without a dot, or
when the only dot leads a hidden file; otherwise the part after the last
dot. -/
def pathExtension (p : Str) : Option Str :=
  match splitLastDot p with
  | none => none
  | some pr => if pr.1 = [] then none else some pr.2

/-- Rust `Path::set_extension` on a plain nonempty file name: truncate to
the file stem and append a dot and the new extension. -/
def pathSetExtension (p : Str) (ext : Str) : Str :=
  (match splitLastDot p with
   | none => p
   | some pr => if pr.1 = [] then p else pr.1) ++ '.' :: ext

/-- Decimal rendering of a natural number (Rust `Display`). -/
def natDec (n : ℕ) : Str :=
  if n = 0 then ['0'] else ((Nat.digits 10 n).reverse.map digitChar)

/-- Round half to even (the rounding of Rust float formatting, on the
exact rational durations of this model). -/
def roundHalfEven (x : ℚ) : ℤ :=
  let f := ⌊x⌋
  let r := x - f
  if r < 1/2 then f
  else if (1 : ℚ)/2 < r then f + 1
  else if f % 2 = 0 then f else f + 1

/-- Rust `{:.2}` on the duration: round to two decimals and print with
exactly two fraction digits. -/
def fmtTwoDec (q : ℚ) : Str :=
  let n := roundHalfEven (q * 100)
  (if n < 0 then ['-'] else []) ++
    natDec (n.natAbs / 100) ++ '.' :: pad2 (n.natAbs % 100)

/-- The header row of `export_csv`. -/
def csvHeader : Str := String.toList (r"id,start,end,duration_minutes,note")

/-- One data row of `export_csv`: id, RFC 3339 start and end, duration to
two decimals, and the note quoted with `"` downgraded to `'`. -/
def csvRow (s : Session) : Str :=
  natDec s.id ++ ',' :: s.start.rfc3339Render ++
  ',' :: s.endTime.rfc3339Render ++
  ',' :: fmtTwoDec s.duration_minutes ++
  ',' :: '\x22' :: (s.note.map (fun c => if c = '\x22' then '\x27' else c))
    ++ ['\x22']

/-- `SessionStore::export_csv` from `src/storage.rs`: force a `.csv`
extension unless the path already has exactly that extension, write the
header row and one row per session, return the count and the actual
path.  The written file content is the last component. -/
def SessionStore.export_csv (path : Str) (sessions : List Session) :
    (ℕ × Str) × Str :=
  let needSet := ((pathExtension path).map
    (fun ext => decide (ext ≠ ['c', 's', 'v']))).getD true
  let out_path := if needSet then pathSetExtension path ['c', 's', 'v']
    else path
  let content := csvHeader ++ '\n' ::
    (sessions.map (fun s => csvRow s ++ ['\n'])).flatten
  ((sessions.length, out_path), content)

/-- Claim-side CSV record splitter: records are separated by newlines
that occur at even quote depth (RFC 4180), and the trailing empty
segment after the final newline is dropped. -/
def csvRecordsAux : Bool → Str → List Str
  | _, [] => [[]]
  | inQ, c :: s =>
    if c = '\n' ∧ inQ = false then [] :: csvRecordsAux false s
    else
      match csvRecordsAux (if c = '\x22' then !inQ else inQ) s with
      | r :: rs => (c :: r) :: rs
      | [] => [[c]]

def csvRecords (s : Str) : List Str := (csvRecordsAux false s).dropLast

theorem natDec_digits (n : ℕ) : ∀ c ∈ natDec n, isDigitCh c = true := by
  intro c hc
  rw [natDec] at hc
  split at hc
  · rcases List.mem_singleton.mp hc with rfl
    decide
  · obtain ⟨d, hd, rfl⟩ := List.mem_map.mp hc
    have hlt : d < 10 :=
      Nat.digits_lt_base (by norm_num) (List.mem_reverse.mp hd)
    exact isDigitCh_digitChar hlt

theorem digit_ne_nl_quote {c : Char} (h : isDigitCh c = true) :
    c ≠ '\n' ∧ c ≠ '\x22' := by
  constructor
  · intro rfl2
    subst rfl2
    exact absurd h (by decide)
  · intro rfl2
    subst rfl2
    exact absurd h (by decide)

theorem rfc3339Render_ne_nl_quote (t : DT) :
    ∀ c ∈ t.rfc3339Render, c ≠ '\n' ∧ c ≠ '\x22' := by
  intro c hc
  rcases rfc3339Render_chars t c hc with hd | hm
  · exact digit_ne_nl_quote hd
  · rcases List.mem_cons.mp hm with rfl | hm
    · exact ⟨by decide, by decide⟩
    · rcases List.mem_cons.mp hm with rfl | hm
      · exact ⟨by decide, by decide⟩
      · rcases List.mem_cons.mp hm with rfl | hm
        · exact ⟨by decide, by decide⟩
        · rcases List.mem_cons.mp hm with rfl | hm
          · exact ⟨by decide, by decide⟩
          · rcases List.mem_cons.mp hm with rfl | hm
            · exact ⟨by decide, by decide⟩
            · cases hm

theorem fmtTwoDec_ne_nl_quote (q : ℚ) :
    ∀ c ∈ fmtTwoDec q, c ≠ '\n' ∧ c ≠ '\x22' := by
  intro c hc
  rw [fmtTwoDec] at hc
  rcases List.mem_append.mp hc with h | h
  · rcases List.mem_append.mp h with h' | h'
    · split at h'
      · rcases List.mem_singleton.mp h' with rfl
        exact ⟨by decide, by decide⟩
      · cases h'
    · exact digit_ne_nl_quote (natDec_digits _ c h')
  · rcases List.mem_cons.mp h with rfl | h'
    · exact ⟨by decide, by decide⟩
    · exact digit_ne_nl_quote (pad2_digits _ c h')

/-- Every character of the unquoted part of a CSV row is neither a
newline nor a quote. -/
theorem csvRow_pre_chars (s : Session) :
    ∀ c ∈ natDec s.id ++ ',' :: s.start.rfc3339Render ++
      ',' :: s.endTime.rfc3339Render ++
      ',' :: fmtTwoDec s.duration_minutes ++ [','],
      c ≠ '\n' ∧ c ≠ '\x22' := by
  intro c hc
  rcases List.mem_append.mp hc with h | h
  · rcases List.mem_append.mp h with h | h
    · rcases List.mem_append.mp h with h | h
      · rcases List.mem_append.mp h with h | h
        · exact digit_ne_nl_quote (natDec_digits _ c h)
        · rcases List.mem_cons.mp h with rfl | h'
          · exact ⟨by decide, by decide⟩
          · exact rfc3339Render_ne_nl_quote _ c h'
      · rcases List.mem_cons.mp h with rfl | h'
        · exact ⟨by decide, by decide⟩
        · exact rfc3339Render_ne_nl_quote _ c h'
    · rcases List.mem_cons.mp h with rfl | h'
      · exact ⟨by decide, by decide⟩
      · exact fmtTwoDec_ne_nl_quote _ c h'
  · rcases List.mem_singleton.mp h with rfl
    exact ⟨by decide, by decide⟩

theorem csvRecordsAux_nl (r : Str) :
    csvRecordsAux false ('\n' :: r) = [] :: csvRecordsAux false r := by
  rw [csvRecordsAux, if_pos ⟨rfl, rfl⟩]

theorem csvRecordsAux_pre (pre : Str)
    (hpre : ∀ c ∈ pre, c ≠ '\n' ∧ c ≠ '\x22') :
    ∀ (r : Str) (h : Str) (tl : List Str), csvRecordsAux false r = h :: tl →
      csvRecordsAux false (pre ++ r) = (pre ++ h) :: tl := by
  induction pre with
  | nil =>
    intro r h tl hr
    simpa using hr
  | cons c pre' ih =>
    intro r h tl hr
    have hc := hpre c (List.mem_cons_self _ _)
    have hrec := ih (fun c hc => hpre c (List.mem_cons_of_mem _ hc)) r h tl hr
    rw [List.cons_append, csvRecordsAux,
      if_neg (fun hand => hc.1 hand.1), if_neg hc.2, hrec]
    rfl

theorem csvRecordsAux_quoted (note : Str) (hnote : ∀ c ∈ note, c ≠ '\x22') :
    ∀ (r : Str) (h : Str) (tl : List Str), csvRecordsAux false r = h :: tl →
      csvRecordsAux true (note ++ '\x22' :: r) =
        (note ++ '\x22' :: h) :: tl := by
  induction note with
  | nil =>
    intro r h tl hr
    rw [List.nil_append, csvRecordsAux,
      if_neg (fun hand => by cases hand.2), if_pos rfl]
    simp only [Bool.not_true, hr]
    rfl
  | cons c note' ih =>
    intro r h tl hr
    have hc := hnote c (List.mem_cons_self _ _)
    have hrec := ih (fun c hc => hnote c (List.mem_cons_of_mem _ hc))
      r h tl hr
    rw [List.cons_append, csvRecordsAux,
      if_neg (fun hand => by cases hand.2), if_neg hc, hrec]
    rfl

theorem csvRecordsAux_row (pre note rest : Str)
    (hpre : ∀ c ∈ pre, c ≠ '\n' ∧ c ≠ '\x22')
    (hnote : ∀ c ∈ note, c ≠ '\x22') (h : Str) (tl : List Str)
    (hr : csvRecordsAux false rest = h :: tl) :
    csvRecordsAux false (pre ++ '\x22' :: (note ++ '\x22' :: '\n' :: rest))
      = (pre ++ '\x22' :: (note ++ ['\x22'])) :: h :: tl := by
  have hnl : csvRecordsAux false ('\n' :: rest) =
      [] :: (h :: tl) := by rw [csvRecordsAux_nl, hr]
  have hq := csvRecordsAux_quoted note hnote ('\n' :: rest) [] (h :: tl) hnl
  have hopen : csvRecordsAux false
      ('\x22' :: (note ++ '\x22' :: '\n' :: rest)) =
      ('\x22' :: (note ++ ['\x22'])) :: h :: tl := by
    rw [csvRecordsAux, if_neg (fun hand => by cases hand.1), if_pos rfl]
    simp only [Bool.not_false, hq]
  exact csvRecordsAux_pre pre hpre _ _ _ hopen

theorem mappedNote_no_quote (note : Str) :
    ∀ c ∈ note.map (fun c => if c = '\x22' then '\x27' else c),
      c ≠ '\x22' := by
  intro c hc
  obtain ⟨d, hd, rfl⟩ := List.mem_map.mp hc
  by_cases h : d = '\x22'
  · rw [if_pos h]
    decide
  · rw [if_neg h]
    exact h

theorem csvRow_shape (s : Session) (rest : Str) :
    (csvRow s ++ ['\n']) ++ rest =
      (natDec s.id ++ ',' :: s.start.rfc3339Render ++
        ',' :: s.endTime.rfc3339Render ++
        ',' :: fmtTwoDec s.duration_minutes ++ [',']) ++
      '\x22' :: ((s.note.map (fun c => if c = '\x22' then '\x27' else c)) ++
        '\x22' :: '\n' :: rest) := by
  simp [csvRow, List.append_assoc]

theorem csvRow_head (s : Session) :
    (natDec s.id ++ ',' :: s.start.rfc3339Render ++
      ',' :: s.endTime.rfc3339Render ++
      ',' :: fmtTwoDec s.duration_minutes ++ [',']) ++
    '\x22' :: ((s.note.map (fun c => if c = '\x22' then '\x27' else c)) ++
      ['\x22']) = csvRow s := by
  simp [csvRow, List.append_assoc]

theorem csvRecordsAux_flatten (sessions : List Session) :
    csvRecordsAux false
      ((sessions.map (fun s => csvRow s ++ ['\n'])).flatten) =
      sessions.map csvRow ++ [[]] := by
  induction sessions with
  | nil => rfl
  | cons s ss ih =>
    rw [List.map_cons, List.flatten_cons]
    obtain ⟨h, tl, hform⟩ : ∃ h tl,
        (ss.map csvRow ++ [[]] : List Str) = h :: tl := by
      cases hm : ss.map csvRow with
      | nil => exact ⟨[], [], rfl⟩
      | cons a as => exact ⟨a, as ++ [[]], List.cons_append a as [[]]⟩
    have hrest : csvRecordsAux false
        ((ss.map (fun s => csvRow s ++ ['\n'])).flatten) = h :: tl := by
      rw [ih, hform]
    rw [csvRow_shape s,
      csvRecordsAux_row _ _ _ (csvRow_pre_chars s)
        (mappedNote_no_quote s.note) h tl hrest,
      csvRow_head s, ← hform, List.map_cons, List.cons_append]

theorem csvRecords_content (sessions : List Session) :
    csvRecords (csvHeader ++ '\n' ::
      (sessions.map (fun s => csvRow s ++ ['\n'])).flatten) =
      csvHeader :: sessions.map csvRow := by
  rw [csvRecords]
  have hhead : ∀ c ∈ csvHeader, c ≠ '\n' ∧ c ≠ '\x22' := by decide
  have hnl : csvRecordsAux false ('\n' ::
      (sessions.map (fun s => csvRow s ++ ['\n'])).flatten) =
      [] :: (sessions.map csvRow ++ [[]]) := by
    rw [csvRecordsAux_nl, csvRecordsAux_flatten]
  rw [csvRecordsAux_pre csvHeader hhead _ _ _ hnl, List.append_nil]
  rw [show (csvHeader :: (sessions.map csvRow ++ [[]]) : List Str) =
    (csvHeader :: sessions.map csvRow) ++ [[]] from
    (List.cons_append csvHeader (sessions.map csvRow) [[]]).symm]
  exact List.dropLast_concat

theorem splitLastDot_no_dot (s : Str) (h : '.' ∉ s) :
    splitLastDot s = none := by
  induction s with
  | nil => rfl
  | cons c s' ih =>
    have hc : c ≠ '.' := fun hh => h (hh ▸ List.mem_cons_self _ _)
    rw [splitLastDot, ih (fun hh => h (List.mem_cons_of_mem _ hh)),
      if_neg hc]

theorem splitLastDot_append (stem suf : Str) (hs : '.' ∉ suf) :
    splitLastDot (stem ++ '.' :: suf) = some (stem, suf) := by
  induction stem with
  | nil =>
    rw [List.nil_append, splitLastDot, splitLastDot_no_dot suf hs,
      if_pos rfl]
  | cons c stem' ih =>
    rw [List.cons_append, splitLastDot, ih]

theorem pathExtension_setExtension (p : Str) (hp : p ≠ []) :
    pathExtension (pathSetExtension p ['c', 's', 'v']) =
      some ['c', 's', 'v'] := by
  rw [pathSetExtension]
  have hnodot : '.' ∉ (['c', 's', 'v'] : Str) := by decide
  set stem := (match splitLastDot p with
    | none => p
    | some pr => if pr.1 = [] then p else pr.1) with hstem
  have hstemne : stem ≠ [] := by
    rw [hstem]
    rcases hsp : splitLastDot p with _ | pr
    · exact hp
    · dsimp only
      split
      · exact hp
      · rename_i hne
        exact hne
  rw [pathExtension, splitLastDot_append stem _ hnodot]
  dsimp only
  rw [if_neg hstemne]

/-- Plain file-name assumptions under which the bare-name path model
matches Rust `Path` behavior: nonempty, not `.` or `..`, and free of
separators (`set_extension` only ever touches the final component). -/
def PlainFileName (p : Str) : Prop :=
  p ≠ [] ∧ p ≠ ['.'] ∧ p ≠ ['.', '.'] ∧ '/' ∉ p

instance (p : Str) : Decidable (PlainFileName p) :=
  inferInstanceAs (Decidable (_ ∧ _))

/-- C6: `export_csv` returns a path with extension `csv` whatever the
input extension, a count equal to the number of sessions, and a file
whose CSV records are exactly the header followed by one record per
session; each record carries the duration with exactly two decimal
places and a quoted note with no embedded quote left. -/
theorem c6_export_csv_shape (path : Str) (sessions : List Session)
    (hp : PlainFileName path) :
    pathExtension (SessionStore.export_csv path sessions).1.2 =
      some ['c', 's', 'v'] ∧
    (SessionStore.export_csv path sessions).1.1 = sessions.length ∧
    csvRecords (SessionStore.export_csv path sessions).2 =
      csvHeader :: sessions.map csvRow ∧
    (∀ s ∈ sessions,
      (∃ pre d1 d2, fmtTwoDec s.duration_minutes = pre ++ ['.', d1, d2] ∧
        isDigitCh d1 = true ∧ isDigitCh d2 = true) ∧
      '\x22' ∉ s.note.map (fun c => if c = '\x22' then '\x27' else c)) := by
  refine ⟨?_, rfl, csvRecords_content sessions, ?_⟩
  · by_cases hns : ((pathExtension path).map
        (fun ext => decide (ext ≠ ['c', 's', 'v']))).getD true = true
    · have hout : (SessionStore.export_csv path sessions).1.2 =
          pathSetExtension path ['c', 's', 'v'] := by
        simp only [SessionStore.export_csv, hns, if_true]
      rw [hout]
      exact pathExtension_setExtension path hp.1
    · have hns' : ((pathExtension path).map
          (fun ext => decide (ext ≠ ['c', 's', 'v']))).getD true = false := by
        cases hb : ((pathExtension path).map
            (fun ext => decide (ext ≠ ['c', 's', 'v']))).getD true
        · rfl
        · exact absurd hb hns
      rcases hext : pathExtension path with _ | e
      · rw [hext] at hns'
        simp at hns'
      · rw [hext] at hns'
        simp only [Option.map_some', Option.getD_some,
          decide_eq_false_iff_not, not_not] at hns'
        have hout : (SessionStore.export_csv path sessions).1.2 = path := by
          simp only [SessionStore.export_csv, hext, Option.map_some',
            Option.getD_some, hns']
          simp
        rw [hout, hext, hns']
  · intro s hs
    constructor
    · exact ⟨(if roundHalfEven (s.duration_minutes * 100) < 0
          then ['-'] else []) ++
          natDec ((roundHalfEven (s.duration_minutes * 100)).natAbs / 100),
        digitChar ((roundHalfEven (s.duration_minutes * 100)).natAbs %
          100 / 10 % 10),
        digitChar ((roundHalfEven (s.duration_minutes * 100)).natAbs %
          100 % 10), rfl,
        isDigitCh_digitChar (Nat.mod_lt _ (by norm_num)),
        isDigitCh_digitChar (Nat.mod_lt _ (by norm_num))⟩
    · exact fun h => mappedNote_no_quote s.note _ h rfl

/-- C6 witness: the theorem applied at a `.txt` path and empty history. -/
theorem c6_export_csv_witness :
    PlainFileName (String.toList (r"data.txt")) ∧
    (pathExtension (SessionStore.export_csv
        (String.toList (r"data.txt")) []).1.2 = some ['c', 's', 'v'] ∧
    (SessionStore.export_csv (String.toList (r"data.txt")) []).1.1 =
      ([] : List Session).length ∧
    csvRecords (SessionStore.export_csv
        (String.toList (r"data.txt")) []).2 =
      csvHeader :: ([] : List Session).map csvRow ∧
    (∀ s ∈ ([] : List Session),
      (∃ pre d1 d2, fmtTwoDec s.duration_minutes = pre ++ ['.', d1, d2] ∧
        isDigitCh d1 = true ∧ isDigitCh d2 = true) ∧
      '\x22' ∉ s.note.map (fun c => if c = '\x22' then '\x27' else c))) :=
  ⟨by decide, c6_export_csv_shape (String.toList (r"data.txt")) []
    (by decide)⟩

/-! ### The monitor loop

The file system is modelled at the parsed level here (the `ActiveSession`
byte-level round trip is established separately by the storage layer
above), and `Uuid::new_v4` by a fresh-id counter. -/

/-- State of `Monitor::run` between poll ticks: the in-memory active
session, the persisted marker, the session history, and the fresh-id
counter. -/
structure MonitorState where
  active : Option ActiveSession
  fileActive : Option ActiveSession
  sessions : List Session
  nextId : ℕ
deriving DecidableEq

/-- The key order of `save_sessions`' `sort_by_key(|s| s.start)`:
chrono's `Ord` compares instants. -/
def sessionStartLE (a b : Session) : Prop :=
  a.start.epochNanos ≤ b.start.epochNanos

instance : DecidableRel sessionStartLE := fun _ _ =>
  inferInstanceAs (Decidable (_ ≤ _))

instance : IsTotal Session sessionStartLE := ⟨fun _ _ => le_total _ _⟩

instance : IsTrans Session sessionStartLE := ⟨fun _ _ _ => le_trans⟩

/-- `SessionStore::append_session` through `save_sessions`: push the new
session, then re-sort the history by start ascending (a stable sort). -/
def append_session (sessions : List Session) (s : Session) : List Session :=
  List.insertionSort sessionStartLE (sessions ++ [s])

/-- `finalize_session` from `src/monitor.rs`: below the minimum, clear
the marker and record nothing; otherwise append
`Session::new(start, last_seen)` and clear the marker. -/
def finalize_session (minMinutes : ℕ) (st : MonitorState)
    (active : ActiveSession) : MonitorState × Option Session :=
  if active_session_minutes active < (minMinutes : ℚ) then
    ({ st with fileActive := none }, none)
  else
    let s := Session.new st.nextId active.start active.last_seen []
    ({ st with
        fileActive := none,
        sessions := append_session st.sessions s,
        nextId := st.nextId + 1 }, some s)

/-- One poll-tick body of the loop in `Monitor::run`
(src/monitor.rs:100-154), at time `now` with probe result `running`. -/
def monitorTick (minMinutes : ℕ) (st : MonitorState) (now : DT)
    (running : Bool) : MonitorState :=
  if running then
    match st.active with
    | some session =>
      let s' : ActiveSession := ⟨session.start, now⟩
      { st with active := some s', fileActive := some s' }
    | none =>
      let s := ActiveSession.new now
      { st with active := some s, fileActive := some s }
  else
    match st.active with
    | some session =>
      (finalize_session minMinutes { st with active := none } session).1
    | none => st

/-- The loop of `Monitor::run` over a finite sequence of poll ticks. -/
def monitorRun (minMinutes : ℕ) (ticks : List (DT × Bool))
    (st : MonitorState) : MonitorState :=
  ticks.foldl (fun st t => monitorTick minMinutes st t.1 t.2) st

/-- The startup recovery fragment of `Monitor::run` (src/monitor.rs
lines 60-85): with a restored marker and the probe reporting
not-running, run the finalize step.  When the recovered session is too
short (`finalize_session` returns `None`), the code leaves the in-memory
`active` holding the stale session even though the marker file was
cleared. -/
def monitorStartup (minMinutes : ℕ) (probeRunning : Bool)
    (st : MonitorState) : MonitorState :=
  match st.active with
  | none => st
  | some session =>
    if !probeRunning then
      match finalize_session minMinutes st session with
      | (st', some _) => { st' with active := none }
      | (st', none) => st'
    else st


theorem monitorRun_allTrue (minM : ℕ) :
    ∀ (ts : List DT) (st : MonitorState) (b : ActiveSession),
      st.active = some b → ts ≠ [] →
      (monitorRun minM (ts.map (fun t => (t, true))) st).active =
          some ⟨b.start, ts.getLastD b.last_seen⟩ ∧
      (monitorRun minM (ts.map (fun t => (t, true))) st).fileActive =
          some ⟨b.start, ts.getLastD b.last_seen⟩ ∧
      (monitorRun minM (ts.map (fun t => (t, true))) st).sessions =
          st.sessions := by
  intro ts
  induction ts with
  | nil => intro st b _ hts; exact absurd rfl hts
  | cons t ts' ih =>
    intro st b hb _
    have hstep : monitorTick minM st t true =
        { st with
            active := some ⟨b.start, t⟩,
            fileActive := some ⟨b.start, t⟩ } := by
      rw [monitorTick, if_pos rfl, hb]
    cases ts' with
    | nil =>
      refine ⟨?_, ?_, ?_⟩ <;>
        simp only [List.map_cons, List.map_nil, monitorRun, List.foldl_cons,
          List.foldl_nil, hstep] <;> rfl
    | cons u us =>
      have hrec := ih (monitorTick minM st t true) ⟨b.start, t⟩
        (by rw [hstep]) (List.cons_ne_nil u us)
      simp only [List.map_cons, monitorRun, List.foldl_cons,
        List.getLastD_cons] at *
      exact ⟨hrec.1, hrec.2.1, by rw [hrec.2.2, hstep]⟩

/-- C9: if at startup a persisted active session exists, the probe says
not-running, and the elapsed minutes are below the minimum, then the
marker file is deleted but the session stays in memory; on subsequent
true poll ticks (before any false tick) the loop keeps updating that same
session's `last_seen` and re-persists it, so the active session keeps the
original stale start time rather than restarting at the current tick. -/
theorem c9_stale_recovered_session_lives_on (minM : ℕ)
    (st0 : MonitorState) (a : ActiveSession) (h0 : st0.active = some a)
    (hshort : active_session_minutes a < (minM : ℚ))
    (ts : List DT) (hts : ts ≠ []) :
    (monitorStartup minM false st0).fileActive = none ∧
    (monitorStartup minM false st0).active = some a ∧
    (monitorRun minM (ts.map (fun t => (t, true)))
        (monitorStartup minM false st0)).active =
      some ⟨a.start, ts.getLast hts⟩ ∧
    (monitorRun minM (ts.map (fun t => (t, true)))
        (monitorStartup minM false st0)).fileActive =
      some ⟨a.start, ts.getLast hts⟩ ∧
    (monitorRun minM (ts.map (fun t => (t, true)))
        (monitorStartup minM false st0)).sessions = st0.sessions := by
  have hstartup : monitorStartup minM false st0 =
      { st0 with fileActive := none } := by
    rw [monitorStartup, h0]
    simp only [Bool.not_false, if_pos]
    rw [finalize_session, if_pos hshort, ← h0]
  have hrun := monitorRun_allTrue minM ts (monitorStartup minM false st0)
    a (by rw [hstartup]; exact h0) hts
  cases ts with
  | nil => exact absurd rfl hts
  | cons t ts' =>
    rw [List.getLast_eq_getLastD]
    rw [List.getLastD_cons] at hrun
    refine ⟨by rw [hstartup], by rw [hstartup]; exact h0,
      hrun.1, hrun.2.1, by rw [hrun.2.2, hstartup]⟩

/-- Witness for C9 at a concrete startup state (stale zero-length
session) and a single later true tick. -/
theorem c9_stale_recovered_session_witness :
    (monitorStartup 1 false
        ⟨some ⟨dt0, dt0⟩, some ⟨dt0, dt0⟩, [], 0⟩).fileActive = none ∧
    (monitorStartup 1 false
        ⟨some ⟨dt0, dt0⟩, some ⟨dt0, dt0⟩, [], 0⟩).active = some ⟨dt0, dt0⟩ ∧
    (monitorRun 1 ([dt0].map (fun t => (t, true)))
        (monitorStartup 1 false
          ⟨some ⟨dt0, dt0⟩, some ⟨dt0, dt0⟩, [], 0⟩)).active =
      some ⟨dt0, dt0⟩ ∧
    (monitorRun 1 ([dt0].map (fun t => (t, true)))
        (monitorStartup 1 false
          ⟨some ⟨dt0, dt0⟩, some ⟨dt0, dt0⟩, [], 0⟩)).fileActive =
      some ⟨dt0, dt0⟩ ∧
    (monitorRun 1 ([dt0].map (fun t => (t, true)))
        (monitorStartup 1 false
          ⟨some ⟨dt0, dt0⟩, some ⟨dt0, dt0⟩, [], 0⟩)).sessions = [] :=
  c9_stale_recovered_session_lives_on 1
    ⟨some ⟨dt0, dt0⟩, some ⟨dt0, dt0⟩, [], 0⟩ ⟨dt0, dt0⟩ rfl
    (by simp [active_session_minutes, dtDiffSeconds])
    [dt0] (List.cons_ne_nil dt0 [])

/-- Claim-side scan of a poll-tick sequence into sessions: track the
first and last tick time of the current run of consecutive true ticks;
when a false tick ends a run (or, with `includeOpen`, when the sequence
ends during a run), keep a session exactly when the run's span passes
the minimum-length check, drawing ids sequentially. -/
def runsGo (minMinutes : ℕ) (includeOpen : Bool) :
    Option (DT × DT) → ℕ → List (DT × Bool) → List Session
  | cur, nid, [] =>
    match cur with
    | some fl =>
      if includeOpen then
        if active_session_minutes ⟨fl.1, fl.2⟩ < (minMinutes : ℚ) then []
        else [Session.new nid fl.1 fl.2 []]
      else []
    | none => []
  | cur, nid, (t, running) :: rest =>
    if running then
      match cur with
      | none => runsGo minMinutes includeOpen (some (t, t)) nid rest
      | some fl => runsGo minMinutes includeOpen (some (fl.1, t)) nid rest
    else
      match cur with
      | none => runsGo minMinutes includeOpen none nid rest
      | some fl =>
        if active_session_minutes ⟨fl.1, fl.2⟩ < (minMinutes : ℚ) then
          runsGo minMinutes includeOpen none nid rest
        else
          Session.new nid fl.1 fl.2 [] ::
            runsGo minMinutes includeOpen none (nid + 1) rest

/-- The session list the claim as stated predicts: every maximal run of
consecutive true ticks whose span from first to last true tick reaches
the minimum, including a run still open at the end of the sequence. -/
def claimSessionsAsStated (minMinutes : ℕ)
    (ticks : List (DT × Bool)) : List Session :=
  runsGo minMinutes true none 0 ticks

/-- The amended prediction: only runs that a later false tick has
terminated are recorded; a run still open when the sequence ends is not
(it is still the active session). -/
def completedRunSessions (minMinutes : ℕ)
    (ticks : List (DT × Bool)) : List Session :=
  runsGo minMinutes false none 0 ticks

/-- One minute after `dt0`. -/
def dt0m1 : DT := ⟨2024, 1, 1, 0, 1, 0, 0, 0⟩

/-- C1 counterexample: two true ticks one minute apart, minimum session
length 1, and no terminating false tick.  The loop records nothing (the
run is still the active session), while the claim as stated predicts one
recorded session for the maximal true-run. -/
theorem c1_recorded_vs_claim_counterexample :
    (monitorRun 1 [(dt0, true), (dt0m1, true)]
        ⟨none, none, [], 0⟩).sessions = [] ∧
    claimSessionsAsStated 1 [(dt0, true), (dt0m1, true)] =
      [Session.new 0 dt0 dt0m1 []] ∧
    ([] : List Session) ≠ [Session.new 0 dt0 dt0m1 []] := by
  refine ⟨rfl, ?_, by simp⟩
  have h2 : dtDiffSeconds dt0m1 dt0 = 60 := by decide
  have hmin : active_session_minutes ⟨dt0, dt0m1⟩ = 1 := by
    show ((max (dtDiffSeconds dt0m1 dt0) 0 : ℤ) : ℚ) / 60 = 1
    rw [h2]
    norm_num
  have hnotlt : ¬ active_session_minutes ⟨dt0, dt0m1⟩ < ((1 : ℕ) : ℚ) := by
    rw [hmin]; norm_num
  show (if active_session_minutes ⟨dt0, dt0m1⟩ < ((1 : ℕ) : ℚ) then
      ([] : List Session) else [Session.new 0 dt0 dt0m1 []]) =
    [Session.new 0 dt0 dt0m1 []]
  rw [if_neg hnotlt]

theorem monitorRun_sessions_go (minM : ℕ) :
    ∀ (ticks : List (DT × Bool)) (st : MonitorState)
      (cur : Option (DT × DT)) (B : ℤ),
      List.Pairwise
        (fun a b : DT × Bool => a.1.epochNanos < b.1.epochNanos) ticks →
      (∀ t ∈ ticks, B < t.1.epochNanos) →
      st.active = cur.map (fun fl => (⟨fl.1, fl.2⟩ : ActiveSession)) →
      List.Sorted sessionStartLE st.sessions →
      (∀ s ∈ st.sessions, s.start.epochNanos ≤ B) →
      (∀ fl, cur = some fl →
        (∀ s ∈ st.sessions, s.start.epochNanos ≤ fl.1.epochNanos) ∧
        fl.1.epochNanos ≤ B) →
      (monitorRun minM ticks st).sessions =
        st.sessions ++ runsGo minM false cur st.nextId ticks := by
  intro ticks
  induction ticks with
  | nil =>
    intro st cur B _ _ _ _ _ _
    cases cur <;> simp [monitorRun, runsGo]
  | cons tr rest ih =>
    obtain ⟨t, r⟩ := tr
    intro st cur B hpw hB hactive hsorted hub hcur
    obtain ⟨hhead, hpw'⟩ := List.pairwise_cons.mp hpw
    have hBt : B < t.epochNanos := hB (t, r) (List.mem_cons_self (t, r) rest)
    have hBrest : ∀ x ∈ rest, t.epochNanos < x.1.epochNanos :=
      fun x hx => hhead x hx
    have hrun : monitorRun minM ((t, r) :: rest) st =
        monitorRun minM rest (monitorTick minM st t r) := rfl
    cases r with
    | true =>
      cases cur with
      | none =>
        have hnone : st.active = none := by simpa using hactive
        have hstep : monitorTick minM st t true =
            { st with
                active := some (ActiveSession.new t),
                fileActive := some (ActiveSession.new t) } := by
          rw [monitorTick, if_pos rfl, hnone]
        have := ih (monitorTick minM st t true) (some (t, t)) t.epochNanos
          hpw' hBrest (by rw [hstep]; rfl) (by rw [hstep]; exact hsorted)
          (by rw [hstep]
              exact fun s hs => le_of_lt (lt_of_le_of_lt (hub s hs) hBt))
          (by rw [hstep]
              intro fl' h'
              obtain rfl : (t, t) = fl' := Option.some_injective _ h'
              exact ⟨fun s hs => le_of_lt (lt_of_le_of_lt (hub s hs) hBt),
                le_refl _⟩)
        rw [hrun, this, hstep]
        rfl
      | some fl =>
        have hsome : st.active = some ⟨fl.1, fl.2⟩ := by simpa using hactive
        obtain ⟨hflub, hflB⟩ := hcur fl rfl
        have hstep : monitorTick minM st t true =
            { st with
                active := some ⟨fl.1, t⟩,
                fileActive := some ⟨fl.1, t⟩ } := by
          rw [monitorTick, if_pos rfl, hsome]
        have := ih (monitorTick minM st t true) (some (fl.1, t)) t.epochNanos
          hpw' hBrest (by rw [hstep]; rfl) (by rw [hstep]; exact hsorted)
          (by rw [hstep]
              exact fun s hs => le_of_lt (lt_of_le_of_lt (hub s hs) hBt))
          (by rw [hstep]
              intro fl' h'
              obtain rfl : (fl.1, t) = fl' := Option.some_injective _ h'
              exact ⟨hflub, le_of_lt (lt_of_le_of_lt hflB hBt)⟩)
        rw [hrun, this, hstep]
        rfl
    | false =>
      cases cur with
      | none =>
        have hnone : st.active = none := by simpa using hactive
        have hstep : monitorTick minM st t false = st := by
          rw [monitorTick, if_neg (by simp), hnone]
        have := ih st none t.epochNanos hpw' hBrest hnone hsorted
          (fun s hs => le_of_lt (lt_of_le_of_lt (hub s hs) hBt))
          (by rintro fl' ⟨⟩)
        rw [hrun, hstep, this]
        rfl
      | some fl =>
        have hsome : st.active = some ⟨fl.1, fl.2⟩ := by simpa using hactive
        obtain ⟨hflub, hflB⟩ := hcur fl rfl
        have hstep : monitorTick minM st t false =
            (finalize_session minM { st with active := none }
              ⟨fl.1, fl.2⟩).1 := by
          rw [monitorTick, if_neg (by simp), hsome]
        by_cases hlen :
            active_session_minutes ⟨fl.1, fl.2⟩ < (minM : ℚ)
        · have hfin : (finalize_session minM { st with active := none }
              ⟨fl.1, fl.2⟩).1 =
              { st with active := none, fileActive := none } := by
            rw [finalize_session, if_pos hlen]
          have := ih ({ st with active := none, fileActive := none })
            none t.epochNanos hpw' hBrest rfl hsorted
            (fun s hs => le_of_lt (lt_of_le_of_lt (hub s hs) hBt))
            (by rintro fl' ⟨⟩)
          rw [hrun, hstep, hfin, this]
          show st.sessions ++ runsGo minM false none st.nextId rest =
            st.sessions ++
              (if active_session_minutes ⟨fl.1, fl.2⟩ < (minM : ℚ) then
                runsGo minM false none st.nextId rest
              else Session.new st.nextId fl.1 fl.2 [] ::
                runsGo minM false none (st.nextId + 1) rest)
          rw [if_pos hlen]
        · have hsortedapp : List.Sorted sessionStartLE
              (st.sessions ++ [Session.new st.nextId fl.1 fl.2 []]) := by
            rw [List.Sorted, List.pairwise_append]
            exact ⟨hsorted, List.sorted_singleton _,
              fun a ha b hb => by
                rw [List.mem_singleton.mp hb]
                exact hflub a ha⟩
          have happ : append_session st.sessions
              (Session.new st.nextId fl.1 fl.2 []) =
              st.sessions ++ [Session.new st.nextId fl.1 fl.2 []] :=
            List.Sorted.insertionSort_eq hsortedapp
          have hfin : (finalize_session minM { st with active := none }
              ⟨fl.1, fl.2⟩).1 =
              { st with
                  active := none, fileActive := none,
                  sessions :=
                    st.sessions ++ [Session.new st.nextId fl.1 fl.2 []],
                  nextId := st.nextId + 1 } := by
            rw [finalize_session, if_neg hlen]
            simp only [happ]
          have := ih ({ st with
              active := none, fileActive := none,
              sessions := st.sessions ++ [Session.new st.nextId fl.1 fl.2 []],
              nextId := st.nextId + 1 })
            none t.epochNanos hpw' hBrest rfl hsortedapp
            (by intro s hs
                rcases List.mem_append.mp hs with h | h
                · exact le_of_lt (lt_of_le_of_lt (hub s h) hBt)
                · rw [List.mem_singleton.mp h]
                  exact le_of_lt (lt_of_le_of_lt hflB hBt))
            (by rintro fl' ⟨⟩)
          rw [hrun, hstep, hfin, this]
          show (st.sessions ++ [Session.new st.nextId fl.1 fl.2 []]) ++
              runsGo minM false none (st.nextId + 1) rest =
            st.sessions ++
              (if active_session_minutes ⟨fl.1, fl.2⟩ < (minM : ℚ) then
                runsGo minM false none st.nextId rest
              else Session.new st.nextId fl.1 fl.2 [] ::
                runsGo minM false none (st.nextId + 1) rest)
          rw [if_neg hlen, List.append_assoc, List.singleton_append]

/-- C1 (amended): starting with no active session, over every strictly
chronological poll-tick sequence (which covers ticks at a fixed poll
interval) the recorded session list equals exactly the maximal runs of
consecutive true ticks that a later false tick has terminated and whose
span from the run's first to its last true tick reaches the minimum
session length; each recorded session's start and end are that run's
first and last true tick times.  A run still open when the sequence ends
is not recorded: it is still the active session. -/
theorem c1_monitor_records_terminated_runs (minM : ℕ)
    (ticks : List (DT × Bool))
    (hchrono : List.Pairwise
      (fun a b : DT × Bool => a.1.epochNanos < b.1.epochNanos) ticks) :
    (monitorRun minM ticks ⟨none, none, [], 0⟩).sessions =
      completedRunSessions minM ticks := by
  cases ticks with
  | nil => rfl
  | cons tr rest =>
    have h := monitorRun_sessions_go minM (tr :: rest)
      ⟨none, none, [], 0⟩ none (tr.1.epochNanos - 1) hchrono
      (by intro x hx
          rcases List.mem_cons.mp hx with rfl | hx
          · omega
          · have := (List.pairwise_cons.mp hchrono).1 x hx
            omega)
      rfl List.sorted_nil (by simp) (by rintro fl ⟨⟩)
    rw [h]
    rfl

/-- Witness for C1 at a two-tick sequence: one true tick, then a
terminating false tick one minute later. -/
theorem c1_monitor_records_witness :
    List.Pairwise
      (fun a b : DT × Bool => a.1.epochNanos < b.1.epochNanos)
      [(dt0, true), (dt0m1, false)] ∧
    (monitorRun 1 [(dt0, true), (dt0m1, false)]
        ⟨none, none, [], 0⟩).sessions =
      completedRunSessions 1 [(dt0, true), (dt0m1, false)] :=
  ⟨by decide, c1_monitor_records_terminated_runs 1
    [(dt0, true), (dt0m1, false)] (by decide)⟩
